import Mathlib

/-!
# Verification of the larkspur Bloom-filter library

Shallow embedding of `src/larkspur/larkspur.py` (the authoritative module; the
`loonfilter` module is a drifted near-duplicate not referenced by the claims).

Modelling conventions:
* Keys are the byte sequences fed to the hash functions.  In the Python source a
  `str` key is UTF-8 encoded and any other key `k` is encoded as
  `str(k).encode('utf8')` before hashing (`hasher`, lines 80-84); all stated
  properties of the index derivation hold uniformly for every byte sequence,
  so the theorems quantify over the encoded bytes.
* The cryptographic digests (md5/sha1/sha256/sha384/sha512) are modelled by an
  abstract `DigestFamily`: a function from the digest size in bytes (which
  uniquely identifies the algorithm chosen in `make_hashes`) and an input byte
  string to a digest, with the single axiomatic property that the digest has
  the advertised length.  `hashlib` incremental states are folded away using
  `h.copy().update(k).digest() = digest(seed ++ k)`.
* Python floats are modelled as exact rationals (`ℚ`) wherever they are only
  stored, compared, multiplied or bounded (`error_rate`, `ratio`); the
  transcendental `math.log`-based configuration derivation of
  `BloomFilter.__init__` (lines 115-120) is modelled separately over `ℝ`
  with the same formulas, and is kept abstract (a parameter `derive`) inside
  the stateful filter model.
* The redis connection is modelled as a functional `Store`: the bitfield is the
  set of bit positions equal to 1 (a list of (name, offset) pairs — `setbit`
  returns the previous value, `getbit` tests membership), hash records are
  typed metadata records, and redis sets are lists.  A pipeline's commands
  execute sequentially.
* Exceptions are modelled by `Except String`; every fallible operation returns
  the store resulting from the mutations issued before the raise.
-/

/-! ## Index derivation (`make_hashes`, lines 20-102) -/

/-- Encoded key: the byte string fed to the salted hash states. -/
abbrev Key := List ℕ

/-- Abstract family of cryptographic hash functions, indexed by digest size in
bytes.  `len` is the only fact the development uses about real digests. -/
structure DigestFamily where
  D : ℕ → List ℕ → List ℕ
  len : ∀ n bs, (D n bs).length = n

/-- Bytes per packed index (`format_code`/`chunk_size` selection, lines 35-43):
8 bytes for `num_bits ≥ 2^31`, 4 bytes for `num_bits ≥ 2^15`, else 2 bytes. -/
def chunkSize (num_bits : ℕ) : ℕ :=
  if 2 ^ 31 ≤ num_bits then 8 else if 2 ^ 15 ≤ num_bits then 4 else 2

/-- Digest size in bytes of the chosen hash algorithm (lines 47-57):
`total_hash_bits = 8 * num_slices * chunk_size`, then sha512 (64 bytes) if
`> 384`, sha384 (48) if `> 256`, sha256 (32) if `> 160`, sha1 (20) if `> 128`,
else md5 (16). -/
def digestSizeBytes (num_slices num_bits : ℕ) : ℕ :=
  if 384 < 8 * num_slices * chunkSize num_bits then 64
  else if 256 < 8 * num_slices * chunkSize num_bits then 48
  else if 160 < 8 * num_slices * chunkSize num_bits then 32
  else if 128 < 8 * num_slices * chunkSize num_bits then 20 else 16

/-- Number of indices unpacked from one digest
(`len(pack_format) = digest_size // chunk_size`, line 62). -/
def packLen (num_slices num_bits : ℕ) : ℕ :=
  digestSizeBytes num_slices num_bits / chunkSize num_bits

/-- Number of salts (lines 66-68): `divmod(num_slices, len(pack_format))`,
plus one when the remainder is nonzero. -/
def numSalts (num_slices num_bits : ℕ) : ℕ :=
  if num_slices % packLen num_slices num_bits ≠ 0 then
    num_slices / packLen num_slices num_bits + 1
  else num_slices / packLen num_slices num_bits

/-- `pack('I', i)`: a 4-byte unsigned integer.  The byte order of `struct`
without a prefix is the host's native order (little-endian on the platforms the
library targets); the spec flags the order as deliberately unpinned. -/
def pack4 (i : ℕ) : List ℕ :=
  [i % 256, i / 256 % 256, i / 65536 % 256, i / 16777216 % 256]

/-- Value of a little-endian byte string. -/
def leVal : List ℕ → ℕ
  | [] => 0
  | b :: rest => b + 256 * leVal rest

/-- `unpack(pack_format, digest)`: split the digest into
`digest_size // chunk_size` chunks of `chunk_size` bytes, each read as an
unsigned integer. -/
def unpackChunks (c : ℕ) (bs : List ℕ) : List ℕ :=
  (List.range (bs.length / c)).map fun i => leVal ((bs.drop (c * i)).take c)

/-- Digest of the `i`-th salted state fed with `key` (lines 74-78 and 91-93):
the state `hashfn(hashfn(pack('I', i)).digest())` cloned and updated with the
key bytes finalizes to `digest(digest(pack('I', i)) ++ key)`. -/
def saltDigest (df : DigestFamily) (num_slices num_bits i : ℕ) (key : Key) :
    List ℕ :=
  df.D (digestSizeBytes num_slices num_bits)
    (df.D (digestSizeBytes num_slices num_bits) (pack4 i) ++ key)

/-- The index sequence produced by `hasher` (lines 80-100) on an encoded key:
for each salt in order, unpack the digest into fixed-width integers, emit each
`index % num_bits`, and stop after `num_slices` values. -/
def hasherFn (df : DigestFamily) (num_slices num_bits : ℕ) (key : Key) :
    List ℕ :=
  ((((List.range (numSalts num_slices num_bits)).flatMap fun i =>
      unpackChunks (chunkSize num_bits)
        (saltDigest df num_slices num_bits i key)).take num_slices).map
    (· % num_bits))

lemma chunkSize_pos (num_bits : ℕ) : 0 < chunkSize num_bits := by
  unfold chunkSize; split <;> [norm_num; skip]; split <;> norm_num

lemma chunkSize_le (num_bits : ℕ) : chunkSize num_bits ≤ 8 := by
  unfold chunkSize; split <;> [norm_num; skip]; split <;> norm_num

lemma digestSizeBytes_ge (num_slices num_bits : ℕ) :
    16 ≤ digestSizeBytes num_slices num_bits := by
  unfold digestSizeBytes
  split_ifs <;> norm_num

lemma packLen_pos (num_slices num_bits : ℕ) :
    0 < packLen num_slices num_bits := by
  have h1 := digestSizeBytes_ge num_slices num_bits
  have h2 := chunkSize_le num_bits
  have h3 := chunkSize_pos num_bits
  have : chunkSize num_bits ≤ digestSizeBytes num_slices num_bits := by omega
  exact Nat.div_pos this h3

lemma unpackChunks_length (c : ℕ) (bs : List ℕ) :
    (unpackChunks c bs).length = bs.length / c := by
  simp [unpackChunks]

lemma numSalts_mul_ge (num_slices num_bits : ℕ) :
    num_slices ≤ numSalts num_slices num_bits * packLen num_slices num_bits := by
  have hp := packLen_pos num_slices num_bits
  set p := packLen num_slices num_bits with hpdef
  have hdm := Nat.div_add_mod num_slices p
  have hmlt : num_slices % p < p := Nat.mod_lt _ hp
  unfold numSalts
  rw [← hpdef]
  split_ifs with h
  · nlinarith [hdm, hmlt]
  · have h0 : num_slices % p = 0 := not_not.mp h
    linarith [hdm, h0, Nat.mul_comm p (num_slices / p)]

/-- Length of the digest of any salted state. -/
lemma saltDigest_length (df : DigestFamily) (ns nb i : ℕ) (key : Key) :
    (saltDigest df ns nb i key).length = digestSizeBytes ns nb := by
  simp [saltDigest, df.len]

lemma hasher_raw_length (df : DigestFamily) (ns nb : ℕ) (key : Key) :
    ((List.range (numSalts ns nb)).flatMap fun i =>
        unpackChunks (chunkSize nb) (saltDigest df ns nb i key)).length
      = numSalts ns nb * packLen ns nb := by
  rw [List.length_flatMap]
  have h : ∀ i, (unpackChunks (chunkSize nb) (saltDigest df ns nb i key)).length
      = packLen ns nb := by
    intro i
    rw [unpackChunks_length, saltDigest_length]
    rfl
  calc ((List.range (numSalts ns nb)).map fun i =>
          (unpackChunks (chunkSize nb) (saltDigest df ns nb i key)).length).sum
      = ((List.range (numSalts ns nb)).map fun _ => packLen ns nb).sum := by
        simp only [h]
    _ = numSalts ns nb * packLen ns nb := by
        rw [List.map_const', List.sum_replicate, List.length_range, smul_eq_mul]

/-- **C1**: for every key (its encoded byte string — a `str` key is UTF-8
encoded, any other key is encoded through its string form before hashing), the
index derivation produced by `make_hashes(num_slices, num_bits)` emits exactly
`num_slices` indices, each in `[0, num_bits)`, and two invocations with the
same key emit the identical index sequence (the derivation is a pure function
of the key). -/
theorem make_hashes_emits_num_slices_indices_in_range
    (df : DigestFamily) (num_slices num_bits : ℕ) (key : Key)
    (_hns : 0 < num_slices) (hnb : 0 < num_bits) :
    (hasherFn df num_slices num_bits key).length = num_slices ∧
    (∀ x ∈ hasherFn df num_slices num_bits key, x < num_bits) ∧
    hasherFn df num_slices num_bits key = hasherFn df num_slices num_bits key := by
  refine ⟨?_, ?_, rfl⟩
  · rw [hasherFn, List.length_map, List.length_take, hasher_raw_length]
    exact Nat.min_eq_left (numSalts_mul_ge num_slices num_bits)
  · intro x hx
    rw [hasherFn] at hx
    obtain ⟨y, _, rfl⟩ := List.mem_map.1 hx
    exact Nat.mod_lt _ hnb

/-- Witness for C1 at `num_slices = 2`, `num_bits = 7`, an all-zero digest
family and key `[1, 2]`. -/
theorem make_hashes_emits_num_slices_indices_in_range_witness :
    (hasherFn ⟨fun n _ => List.replicate n 0, fun n _ => by simp⟩ 2 7 [1, 2]).length = 2 ∧
    (∀ x ∈ hasherFn ⟨fun n _ => List.replicate n 0, fun n _ => by simp⟩ 2 7 [1, 2], x < 7) ∧
    hasherFn ⟨fun n _ => List.replicate n 0, fun n _ => by simp⟩ 2 7 [1, 2]
      = hasherFn ⟨fun n _ => List.replicate n 0, fun n _ => by simp⟩ 2 7 [1, 2] :=
  make_hashes_emits_num_slices_indices_in_range _ 2 7 [1, 2]
    (by decide) (by decide)

/-- First digest size in the ordered set `{128,160,256,384,512}` (bits) that is
at least `t`, with `512` as the default: the claim's characterization of the
algorithm-selection rule. -/
def smallestDigestBits (t : ℕ) : ℕ :=
  ((([128, 160, 256, 384, 512] : List ℕ).find? fun d => decide (t ≤ d)).getD 512)

lemma smallestDigestBits_eq (t : ℕ) :
    smallestDigestBits t =
      if 384 < t then 512 else if 256 < t then 384 else if 160 < t then 256
      else if 128 < t then 160 else 128 := by
  unfold smallestDigestBits
  rcases le_or_lt t 128 with h1 | h1
  · rw [List.find?_cons_of_pos _ (by simpa using h1)]
    simp only [Option.getD_some]
    split_ifs <;> omega
  rcases le_or_lt t 160 with h2 | h2
  · rw [List.find?_cons_of_neg _ (by simpa using h1),
      List.find?_cons_of_pos _ (by simpa using h2)]
    simp only [Option.getD_some]
    split_ifs <;> omega
  rcases le_or_lt t 256 with h3 | h3
  · rw [List.find?_cons_of_neg _ (by simpa using h1),
      List.find?_cons_of_neg _ (by simpa using h2),
      List.find?_cons_of_pos _ (by simpa using h3)]
    simp only [Option.getD_some]
    split_ifs <;> omega
  rcases le_or_lt t 384 with h4 | h4
  · rw [List.find?_cons_of_neg _ (by simpa using h1),
      List.find?_cons_of_neg _ (by simpa using h2),
      List.find?_cons_of_neg _ (by simpa using h3),
      List.find?_cons_of_pos _ (by simpa using h4)]
    simp only [Option.getD_some]
    split_ifs <;> omega
  rcases le_or_lt t 512 with h5 | h5
  · rw [List.find?_cons_of_neg _ (by simpa using h1),
      List.find?_cons_of_neg _ (by simpa using h2),
      List.find?_cons_of_neg _ (by simpa using h3),
      List.find?_cons_of_neg _ (by simpa using h4),
      List.find?_cons_of_pos _ (by simpa using h5)]
    simp only [Option.getD_some]
    split_ifs <;> omega
  · rw [List.find?_cons_of_neg _ (by simpa using h1),
      List.find?_cons_of_neg _ (by simpa using h2),
      List.find?_cons_of_neg _ (by simpa using h3),
      List.find?_cons_of_neg _ (by simpa using h4),
      List.find?_cons_of_neg _ (by simpa using h5)]
    simp only [List.find?_nil, Option.getD_none]
    split_ifs <;> omega

/-- Ceil division characterization of the salt count. -/
lemma numSalts_eq_ceil (ns nb : ℕ) :
    numSalts ns nb = (ns + packLen ns nb - 1) / packLen ns nb := by
  have hp := packLen_pos ns nb
  set p := packLen ns nb with hpdef
  have hdm := Nat.div_add_mod ns p
  have hmlt : ns % p < p := Nat.mod_lt _ hp
  unfold numSalts
  rw [← hpdef]
  split_ifs with h
  · symm
    apply Nat.div_eq_of_lt_le
    · have e : (ns / p + 1) * p = p * (ns / p) + p := by ring
      rw [e]; omega
    · have e : (ns / p + 1 + 1) * p = p * (ns / p) + p + p := by ring
      rw [e]; omega
  · have h0 : ns % p = 0 := not_not.mp h
    symm
    apply Nat.div_eq_of_lt_le
    · have e : ns / p * p = p * (ns / p) := by ring
      rw [e]; omega
    · have e : (ns / p + 1) * p = p * (ns / p) + p := by ring
      rw [e]; omega

/-- **C7**: hash-derivation selection rules — index width 2 bytes for
`num_bits < 2^15`, else 4 bytes for `num_bits < 2^31`, else 8 bytes; digest =
the smallest of {128 (md5), 160 (sha1), 256 (sha256), 384 (sha384),
512 (sha512)} bits strictly above the threshold boundary for
`total_bits_needed = 8 * num_slices * index_width`, defaulting to 512 bits;
`ceil(num_slices / (digest_size_bytes / index_width_bytes))` salts; and salt
`i` finalizes to `digest(digest(pack_uint32(i)))`. -/
theorem make_hashes_selection_rules
    (df : DigestFamily) (num_slices num_bits : ℕ)
    (_hns : 0 < num_slices) (_hnb : 0 < num_bits) :
    (chunkSize num_bits =
      if num_bits < 2 ^ 15 then 2 else if num_bits < 2 ^ 31 then 4 else 8) ∧
    (8 * digestSizeBytes num_slices num_bits =
      smallestDigestBits (8 * num_slices * chunkSize num_bits)) ∧
    (numSalts num_slices num_bits =
      (num_slices + packLen num_slices num_bits - 1) /
        packLen num_slices num_bits) ∧
    (∀ i, saltDigest df num_slices num_bits i [] =
      df.D (digestSizeBytes num_slices num_bits)
        (df.D (digestSizeBytes num_slices num_bits) (pack4 i))) := by
  refine ⟨?_, ?_, numSalts_eq_ceil num_slices num_bits, fun i => by
    simp [saltDigest]⟩
  · unfold chunkSize
    split_ifs <;> omega
  · rw [smallestDigestBits_eq]
    unfold digestSizeBytes
    split_ifs <;> omega

/-- Witness for C7 at `num_slices = 10`, `num_bits = 1439` and an all-zero
digest family. -/
theorem make_hashes_selection_rules_witness :
    (chunkSize 1439 = if 1439 < 2 ^ 15 then 2 else if 1439 < 2 ^ 31 then 4 else 8) ∧
    (8 * digestSizeBytes 10 1439 = smallestDigestBits (8 * 10 * chunkSize 1439)) ∧
    (numSalts 10 1439 = (10 + packLen 10 1439 - 1) / packLen 10 1439) ∧
    (∀ i, saltDigest ⟨fun n _ => List.replicate n 0, fun n _ => by simp⟩ 10 1439 i [] =
      (fun n _ => List.replicate n 0 : ℕ → List ℕ → List ℕ) (digestSizeBytes 10 1439)
        ((fun n _ => List.replicate n 0 : ℕ → List ℕ → List ℕ) (digestSizeBytes 10 1439)
          (pack4 i))) :=
  make_hashes_selection_rules ⟨fun n _ => List.replicate n 0, fun n _ => by simp⟩
    10 1439 (by decide) (by decide)

/-! ## The redis store model -/

/-- Typed image of a `bfmeta:*` hash record (`_create_meta`, lines 137-145).
`deserialize_hm` (lines 7-17) parses `error_rate` as a float and every other
field as an int; the typed record absorbs that round trip. -/
structure BFMeta where
  error_rate : ℚ
  num_slices : ℕ
  bits_per_slice : ℕ
  capacity : ℕ
  num_bits : ℕ
  count : ℕ
deriving DecidableEq

/-- Typed image of an `sbfmeta:*` hash record
(`ScalableBloomFilter._create_meta`, lines 250-256). -/
structure SBFMeta where
  error_rate : ℚ
  scale : ℕ
  ratio : ℚ
  initial_capacity : ℕ
deriving DecidableEq

/-- Functional model of the redis connection: `bits` is the set of bit
positions holding 1 (as (key, offset) pairs), `metas`/`sbfMetas` the hash
records, `sets` the set records (element order is the insertion order;
the code sorts before relying on it). -/
instance exceptDecEq {ε α : Type} [DecidableEq ε] [DecidableEq α] :
    DecidableEq (Except ε α) := fun a b =>
  match a, b with
  | .error e, .error e' => decidable_of_iff (e = e') (by simp)
  | .ok x, .ok y => decidable_of_iff (x = y) (by simp)
  | .error _, .ok _ => isFalse fun h => Except.noConfusion h
  | .ok _, .error _ => isFalse fun h => Except.noConfusion h

structure Store where
  bits : List (String × ℕ)
  metas : String → Option BFMeta
  sbfMetas : String → Option SBFMeta
  sets : String → List String

def emptyStore : Store := ⟨[], fun _ => none, fun _ => none, fun _ => []⟩

/-- `getbit name pos`. -/
def Store.getbit (st : Store) (name : String) (pos : ℕ) : Bool :=
  (name, pos) ∈ st.bits

/-- `setbit name pos 1`: returns the updated store and the previous value. -/
def Store.setbit (st : Store) (name : String) (pos : ℕ) : Store × Bool :=
  if (name, pos) ∈ st.bits then (st, true)
  else ({st with bits := (name, pos) :: st.bits}, false)

/-- A pipeline of `setbit ... 1` commands executed in order; the result list
holds the previous value of each bit. -/
def Store.setbits (st : Store) (name : String) : List ℕ → Store × List Bool
  | [] => (st, [])
  | p :: ps =>
    let r := st.setbit name p
    let rest := r.1.setbits name ps
    (rest.1, r.2 :: rest.2)

/-- `hincrby mname 'count' delta`, returning the new value.  When the record
is missing redis creates it holding only the incremented field; modelled as a
record with zero defaults. -/
def Store.hincrbyCount (st : Store) (mname : String) (delta : ℕ) : Store × ℕ :=
  match st.metas mname with
  | some m =>
    ({st with metas := fun n => if n = mname then some {m with count := m.count + delta} else st.metas n},
     m.count + delta)
  | none =>
    ({st with metas := fun n => if n = mname then some ⟨0, 0, 0, 0, 0, delta⟩ else st.metas n},
     delta)

/-- `sadd name v` (redis set insertion). -/
def Store.sadd (st : Store) (name : String) (v : String) : Store :=
  if v ∈ st.sets name then st
  else {st with sets := fun n => if n = name then st.sets name ++ [v] else st.sets n}

/-! ## BloomFilter (lines 105-218) -/

/-- In-memory state of a `BloomFilter` object: the fields assigned by
`__init__` (the hasher is recomputed on demand from `num_slices` and
`bits_per_slice`, line 135). -/
structure BF where
  name : String
  error_rate : ℚ
  num_slices : ℕ
  bits_per_slice : ℕ
  capacity : ℕ
  num_bits : ℕ
  count : ℕ
deriving DecidableEq

def BF.metaName (f : BF) : String := "bfmeta:" ++ f.name

/-- Python `meta.get(field) or fallback` for an integer field: the fallback is
used when the record is missing or the stored value is falsy (zero). -/
def orN (v : Option ℕ) (fallback : ℕ) : ℕ :=
  match v with
  | none => fallback
  | some x => if x = 0 then fallback else x

/-- Python `meta.get(field) or fallback` for the float field. -/
def orQ (v : Option ℚ) (fallback : ℚ) : ℚ :=
  match v with
  | none => fallback
  | some x => if x = 0 then fallback else x

/-- `BloomFilter.__init__` (lines 107-135).  `derive capacity error_rate`
stands for the pair `(num_slices, bits_per_slice)` computed by the
floating-point `math.log` formulas of lines 115-120 (modelled over `ℝ` as
`numSlicesR`/`bitsPerSliceR` below); persisted metadata overrides every
derived or passed-in field through `or`-chains (lines 125-130).  Raises
`ValueError` on an invalid `error_rate`/`capacity` (before any store access)
and when `num_bits > 2^32`; persists the metadata record when absent. -/
def BF.init (derive : ℕ → ℚ → ℕ × ℕ) (st : Store) (name : String)
    (capacity : ℕ) (error_rate : ℚ) : Store × Except String BF :=
  if ¬(0 < error_rate ∧ error_rate < 1) then
    (st, .error "error_rate must be float value between 0 and 1, exclusive.")
  else if ¬0 < capacity then
    (st, .error "capacity must be greater than 0.")
  else
    let ns := (derive capacity error_rate).1
    let bps := (derive capacity error_rate).2
    let mname := "bfmeta:" ++ name
    let meta := st.metas mname
    let f : BF := {
      name := name
      error_rate := orQ (meta.map (·.error_rate)) error_rate
      num_slices := orN (meta.map (·.num_slices)) ns
      bits_per_slice := orN (meta.map (·.bits_per_slice)) bps
      capacity := orN (meta.map (·.capacity)) capacity
      num_bits := orN (meta.map (·.num_bits)) (ns * bps)
      count := orN (meta.map (·.count)) 0 }
    if 2 ^ 32 < f.num_bits then
      (st, .error "capacity too large or error rate too low to store in redis")
    else if meta.isSome then (st, .ok f)
    else
      ({st with metas := fun n =>
          if n = mname then
            some ⟨f.error_rate, f.num_slices, f.bits_per_slice, f.capacity,
              f.num_bits, f.count⟩
          else st.metas n},
       .ok f)

/-- Global bit positions of a key in a filter (`__contains__`/`add` loops:
the `j`-th emitted index lands at offset `j * bits_per_slice`). -/
def BF.positions (df : DigestFamily) (f : BF) (key : Key) : List ℕ :=
  (hasherFn df f.num_slices f.bits_per_slice key).enum.map
    fun ji => ji.1 * f.bits_per_slice + ji.2

/-- `__contains__` (lines 147-156): batch-read all positions, true iff all
bits are set. -/
def BF.contains (df : DigestFamily) (st : Store) (f : BF) (key : Key) : Bool :=
  (BF.positions df f key).all fun p => st.getbit f.name p

/-- `add` (lines 158-173): raise `IndexError('BloomFilter is at capacity')`
when `count > capacity` (before hashing), else batch-set all positions; if any
previous bit was 0 the key is novel and the persisted counter is atomically
incremented, the new value becoming the local count. -/
def BF.add (df : DigestFamily) (st : Store) (f : BF) (key : Key) :
    Store × Except String (Bool × BF) :=
  if f.capacity < f.count then (st, .error "BloomFilter is at capacity")
  else
    let r := st.setbits f.name (BF.positions df f key)
    let already := r.2.all id
    if already then (r.1, .ok (true, f))
    else
      let r2 := r.1.hincrbyCount f.metaName 1
      (r2.1, .ok (false, {f with count := r2.2}))

/-- Number of novel keys in a bulk result (lines 186-193): partition the
pipeline results into consecutive groups of `num_slices`, count the groups in
which some previous bit was 0 (an incomplete trailing group is discarded with
the buffer). -/
def countNovel (ns : ℕ) (res : List Bool) : ℕ :=
  ((List.range (res.length / ns)).filter fun g =>
    !((res.drop (g * ns)).take ns).all id).length

/-- `bulk_add` (lines 175-194): same capacity guard as `add`, one combined
pipeline setting every key's positions, then one counter increment by the
number of novel keys. -/
def BF.bulkAdd (df : DigestFamily) (st : Store) (f : BF) (keys : List Key) :
    Store × Except String BF :=
  if f.capacity < f.count then (st, .error "BloomFilter is at capacity")
  else
    let r := keys.foldl
      (fun (acc : Store × List Bool) k =>
        let r := acc.1.setbits f.name (BF.positions df f k)
        (r.1, acc.2 ++ r.2))
      (st, [])
    let inc := countNovel f.num_slices r.2
    let r2 := r.1.hincrbyCount f.metaName inc
    (r2.1, .ok {f with count := r2.2})

/-! ## C3: the capacity guard of `add` -/

/-- **C3**: `add` raises exactly when `count > capacity` at invocation — the
check precedes hashing and novelty detection, so it is independent of the key
and of the stored bits (an already-present key also triggers it); at
`count == capacity` no error is raised; and on the error path the store (bit
array and counter record) is completely unchanged. -/
lemma add_ok_of_not_over (df : DigestFamily) (st : Store) (f : BF) (key : Key)
    (hc : ¬f.capacity < f.count) :
    ∃ b f', (BF.add df st f key).2 = .ok (b, f') := by
  rw [BF.add, if_neg hc]
  dsimp only
  split
  · exact ⟨true, f, rfl⟩
  · exact ⟨false, _, rfl⟩

theorem add_capacity_guard (df : DigestFamily) (st : Store) (f : BF) (key : Key) :
    ((∃ e, (BF.add df st f key).2 = .error e) ↔ f.capacity < f.count) ∧
    (f.capacity < f.count →
      BF.add df st f key = (st, .error "BloomFilter is at capacity")) ∧
    (f.count = f.capacity → ∃ b f', (BF.add df st f key).2 = .ok (b, f')) := by
  by_cases hc : f.capacity < f.count
  · refine ⟨⟨fun _ => hc, fun _ =>
      ⟨"BloomFilter is at capacity", by simp [BF.add, hc]⟩⟩,
      fun _ => by simp [BF.add, hc], fun he => absurd hc (by omega)⟩
  · constructor
    · constructor
      · rintro ⟨e, he⟩
        obtain ⟨b, f', hok⟩ := add_ok_of_not_over df st f key hc
        rw [hok] at he
        cases he
      · intro h; exact absurd h hc
    · exact ⟨fun h => absurd h hc, fun _ => add_ok_of_not_over df st f key hc⟩

/-- Witness for C3: a filter whose count (2) exceeds its capacity (1), and the
iff/implication instances at that input. -/
theorem add_capacity_guard_witness :
    ((∃ e, (BF.add ⟨fun n _ => List.replicate n 0, fun n _ => by simp⟩ emptyStore
        ⟨"f", 0, 1, 1, 1, 1, 2⟩ [7]).2 = .error e) ↔ (1 : ℕ) < 2) ∧
    ((1 : ℕ) < 2 →
      BF.add ⟨fun n _ => List.replicate n 0, fun n _ => by simp⟩ emptyStore
        ⟨"f", 0, 1, 1, 1, 1, 2⟩ [7]
        = (emptyStore, .error "BloomFilter is at capacity")) ∧
    ((2 : ℕ) = 1 → ∃ b f',
      (BF.add ⟨fun n _ => List.replicate n 0, fun n _ => by simp⟩ emptyStore
        ⟨"f", 0, 1, 1, 1, 1, 2⟩ [7]).2 = .ok (b, f')) :=
  add_capacity_guard _ emptyStore ⟨"f", 0, 1, 1, 1, 1, 2⟩ [7]

/-! ## Pipeline lemmas -/

lemma setbit_mem (st : Store) (name : String) (p : ℕ) :
    (name, p) ∈ (st.setbit name p).1.bits := by
  unfold Store.setbit
  split_ifs with h
  · exact h
  · exact List.mem_cons_self _ _

lemma setbit_mono (st : Store) (name : String) (p : ℕ) {x : String × ℕ}
    (hx : x ∈ st.bits) : x ∈ (st.setbit name p).1.bits := by
  unfold Store.setbit
  split_ifs with h
  · exact hx
  · exact List.mem_cons_of_mem _ hx

lemma setbit_metas (st : Store) (name : String) (p : ℕ) :
    (st.setbit name p).1.metas = st.metas := by
  unfold Store.setbit; split_ifs <;> rfl

lemma setbits_mono (name : String) :
    ∀ (ps : List ℕ) (st : Store) {x : String × ℕ}, x ∈ st.bits →
      x ∈ (st.setbits name ps).1.bits
  | [], _, _, hx => hx
  | p :: ps, st, _, hx =>
    setbits_mono name ps (st.setbit name p).1 (setbit_mono st name p hx)

lemma setbits_sets (name : String) :
    ∀ (ps : List ℕ) (st : Store) {p : ℕ}, p ∈ ps →
      (name, p) ∈ (st.setbits name ps).1.bits := by
  intro ps
  induction ps with
  | nil => intro st p hp; cases hp
  | cons q ps ih =>
    intro st p hp
    rcases List.mem_cons.1 hp with rfl | hp
    · exact setbits_mono name ps _ (setbit_mem st name p)
    · exact ih _ hp

lemma setbits_metas (name : String) :
    ∀ (ps : List ℕ) (st : Store), (st.setbits name ps).1.metas = st.metas
  | [], _ => rfl
  | p :: ps, st => by
    rw [show (st.setbits name (p :: ps)).1 = ((st.setbit name p).1.setbits name ps).1 from rfl,
      setbits_metas name ps, setbit_metas]

/-- Setting bits that are all already 1 is a complete no-op, and every
previous value reads back as 1. -/
lemma setbits_all_mem (name : String) :
    ∀ (ps : List ℕ) (st : Store), (∀ p ∈ ps, (name, p) ∈ st.bits) →
      st.setbits name ps = (st, List.replicate ps.length true) := by
  intro ps
  induction ps with
  | nil => intro st _; rfl
  | cons q ps ih =>
    intro st h
    have hq : (name, q) ∈ st.bits := h q (List.mem_cons_self _ _)
    have hset : st.setbit name q = (st, true) := by
      unfold Store.setbit; rw [if_pos hq]
    have hstep : st.setbits name (q :: ps) =
        (((st.setbit name q).1.setbits name ps).1,
          (st.setbit name q).2 :: ((st.setbit name q).1.setbits name ps).2) := rfl
    rw [hstep, hset]
    have hrest := ih st fun p hp => h p (List.mem_cons_of_mem _ hp)
    simp only [hrest]
    simp [List.replicate_succ]

lemma hincrby_bits (st : Store) (mname : String) (delta : ℕ) :
    (st.hincrbyCount mname delta).1.bits = st.bits := by
  cases h : st.metas mname <;> simp [Store.hincrbyCount, h]

lemma hincrby_sets (st : Store) (mname : String) (delta : ℕ) :
    (st.hincrbyCount mname delta).1.sets = st.sets := by
  cases h : st.metas mname <;> simp [Store.hincrbyCount, h]

lemma add_ok_not_over (df : DigestFamily) (st : Store) (f : BF) (key : Key)
    {x : Bool × BF} (h : (BF.add df st f key).2 = .ok x) :
    ¬f.capacity < f.count := by
  intro hlt
  rw [BF.add, if_pos hlt] at h
  cases h

/-- A successful `add` changes at most the count of the filter object. -/
lemma add_ok_params (df : DigestFamily) (st : Store) (f : BF) (key : Key)
    {b : Bool} {f₁ : BF} (h : (BF.add df st f key).2 = .ok (b, f₁)) :
    f₁.name = f.name ∧ f₁.error_rate = f.error_rate ∧
    f₁.num_slices = f.num_slices ∧ f₁.bits_per_slice = f.bits_per_slice ∧
    f₁.capacity = f.capacity ∧ f₁.num_bits = f.num_bits := by
  have hc := add_ok_not_over df st f key h
  rw [BF.add, if_neg hc] at h
  dsimp only at h
  split at h
  · simp only [Except.ok.injEq, Prod.mk.injEq] at h
    rw [← h.2]
    exact ⟨rfl, rfl, rfl, rfl, rfl, rfl⟩
  · simp only [Except.ok.injEq, Prod.mk.injEq] at h
    rw [← h.2]
    exact ⟨rfl, rfl, rfl, rfl, rfl, rfl⟩

/-- After any non-raising `add`, every bit position of the key is set in the
resulting store. -/
lemma add_bits_set (df : DigestFamily) (st : Store) (f : BF) (key : Key)
    (hc : ¬f.capacity < f.count) :
    ∀ p ∈ BF.positions df f key, (f.name, p) ∈ (BF.add df st f key).1.bits := by
  intro p hp
  rw [BF.add, if_neg hc]
  dsimp only
  split
  · exact setbits_sets f.name _ st hp
  · rw [hincrby_bits]
    exact setbits_sets f.name _ st hp

/-- **C8**: idempotence of `add` — if `add(k)` succeeds and the filter's count
still satisfies `count ≤ capacity`, a second `add(k)` reports the key as
already present, leaves the store (bit array and counter record) completely
unchanged, and does not change the filter's count. -/
theorem add_idempotent (df : DigestFamily) (st : Store) (f : BF) (key : Key)
    (b : Bool) (f₁ : BF)
    (h : (BF.add df st f key).2 = .ok (b, f₁)) (h2 : f₁.count ≤ f₁.capacity) :
    BF.add df (BF.add df st f key).1 f₁ key
      = ((BF.add df st f key).1, .ok (true, f₁)) := by
  obtain ⟨hname, _, hns, hbps, _, _⟩ := add_ok_params df st f key h
  have hc0 := add_ok_not_over df st f key h
  have hc1 : ¬f₁.capacity < f₁.count := by omega
  have hpos : BF.positions df f₁ key = BF.positions df f key := by
    unfold BF.positions; rw [hns, hbps]
  have hset := add_bits_set df st f key hc0
  rw [BF.add, if_neg hc1]
  dsimp only
  rw [hpos, hname, setbits_all_mem f.name (BF.positions df f key) _ hset]
  simp

/-- Witness for C8: a filter with capacity 2 receiving the key `[5]` twice. -/
theorem add_idempotent_witness :
    BF.add ⟨fun n _ => List.replicate n 0, fun n _ => by simp⟩
      (BF.add ⟨fun n _ => List.replicate n 0, fun n _ => by simp⟩ emptyStore
        ⟨"f", 0, 1, 1, 2, 1, 0⟩ [5]).1
      ⟨"f", 0, 1, 1, 2, 1, 1⟩ [5]
    = ((BF.add ⟨fun n _ => List.replicate n 0, fun n _ => by simp⟩ emptyStore
        ⟨"f", 0, 1, 1, 2, 1, 0⟩ [5]).1, .ok (true, ⟨"f", 0, 1, 1, 2, 1, 1⟩)) :=
  add_idempotent _ emptyStore ⟨"f", 0, 1, 1, 2, 1, 0⟩ [5] false
    ⟨"f", 0, 1, 1, 2, 1, 1⟩ (by decide) (by decide)

/-! ## C5: persisted configuration wins over constructor arguments -/

lemma init_ok_valid (derive : ℕ → ℚ → ℕ × ℕ) (st : Store) (name : String)
    (cap : ℕ) (er : ℚ) {bf : BF}
    (h : (BF.init derive st name cap er).2 = .ok bf) :
    (0 < er ∧ er < 1) ∧ 0 < cap := by
  by_cases hv : ¬(0 < er ∧ er < 1)
  · rw [BF.init, if_pos hv] at h; cases h
  by_cases hc : ¬0 < cap
  · rw [BF.init, if_neg hv, if_pos hc] at h; cases h
  exact ⟨not_not.mp hv, not_not.mp hc⟩

/-- Construction against a fresh name: the config is the derived one, the
count starts at 0, and the metadata record is persisted. -/
lemma init_fresh_ok (derive : ℕ → ℚ → ℕ × ℕ) (st : Store) (name : String)
    (cap : ℕ) (er : ℚ)
    (hfresh : st.metas ("bfmeta:" ++ name) = none)
    (hv : 0 < er ∧ er < 1) (hcap : 0 < cap)
    (hnb : ¬2 ^ 32 < (derive cap er).1 * (derive cap er).2) :
    BF.init derive st name cap er =
      ({st with metas := fun n =>
          if n = "bfmeta:" ++ name then
            some ⟨er, (derive cap er).1, (derive cap er).2, cap,
              (derive cap er).1 * (derive cap er).2, 0⟩
          else st.metas n},
       .ok ⟨name, er, (derive cap er).1, (derive cap er).2, cap,
         (derive cap er).1 * (derive cap er).2, 0⟩) := by
  rw [BF.init, if_neg (not_not_intro hv), if_neg (not_not_intro hcap)]
  dsimp only
  rw [hfresh]
  simp only [Option.map_none', orQ, orN, Option.isSome_none, Bool.false_eq_true,
    if_false]
  rw [if_neg hnb]

/-- Construction against a persisted record with truthy (nonzero) fields:
every config field comes from the record, the arguments are ignored, and the
store is untouched. -/
lemma init_persisted_ok (derive : ℕ → ℚ → ℕ × ℕ) (st : Store) (name : String)
    (cap : ℕ) (er : ℚ) (m : BFMeta)
    (hmeta : st.metas ("bfmeta:" ++ name) = some m)
    (hv : 0 < er ∧ er < 1) (hcap : 0 < cap)
    (her : m.error_rate ≠ 0) (hns : m.num_slices ≠ 0)
    (hbps : m.bits_per_slice ≠ 0) (hcapm : m.capacity ≠ 0)
    (hnbm : m.num_bits ≠ 0) (hnb : ¬2 ^ 32 < m.num_bits) :
    BF.init derive st name cap er =
      (st, .ok ⟨name, m.error_rate, m.num_slices, m.bits_per_slice, m.capacity,
        m.num_bits, m.count⟩) := by
  rw [BF.init, if_neg (not_not_intro hv), if_neg (not_not_intro hcap)]
  dsimp only
  rw [hmeta]
  simp only [Option.map_some', orQ, orN, if_neg her, if_neg hns, if_neg hbps,
    if_neg hcapm, if_neg hnbm, Option.isSome_some, if_true]
  rw [if_neg hnb]
  split_ifs with h0
  · simp [h0]
  · rfl

/-- **C5**: persisted-config precedence (first-write-wins).  After a first
construction persisted the metadata for a name, a second construction against
the same name, with any arguments it accepts, yields the persisted
`error_rate`, `num_slices`, `bits_per_slice`, `capacity` and `num_bits` —
identical to those of the first construction — and leaves the store untouched.
(The first construction is against a fresh name; `num_slices` and
`bits_per_slice` derived as nonzero, as the `math.log`-formulas always do for
valid arguments.) -/
theorem init_persisted_config_precedence
    (derive : ℕ → ℚ → ℕ × ℕ) (st : Store) (name : String)
    (c₁ c₂ : ℕ) (e₁ e₂ : ℚ) (bf₁ bf₂ : BF)
    (hfresh : st.metas ("bfmeta:" ++ name) = none)
    (hns : (derive c₁ e₁).1 ≠ 0) (hbps : (derive c₁ e₁).2 ≠ 0)
    (h₁ : (BF.init derive st name c₁ e₁).2 = .ok bf₁)
    (h₂ : (BF.init derive (BF.init derive st name c₁ e₁).1 name c₂ e₂).2
      = .ok bf₂) :
    bf₂.error_rate = bf₁.error_rate ∧ bf₂.num_slices = bf₁.num_slices ∧
    bf₂.bits_per_slice = bf₁.bits_per_slice ∧ bf₂.capacity = bf₁.capacity ∧
    bf₂.num_bits = bf₁.num_bits ∧
    (BF.init derive (BF.init derive st name c₁ e₁).1 name c₂ e₂).1
      = (BF.init derive st name c₁ e₁).1 := by
  obtain ⟨hv₁, hc₁⟩ := init_ok_valid derive st name c₁ e₁ h₁
  obtain ⟨hv₂, hc₂⟩ := init_ok_valid derive _ name c₂ e₂ h₂
  have hnb : ¬2 ^ 32 < (derive c₁ e₁).1 * (derive c₁ e₁).2 := by
    intro hlt
    rw [BF.init, if_neg (not_not_intro hv₁), if_neg (not_not_intro hc₁)] at h₁
    dsimp only at h₁
    rw [hfresh] at h₁
    simp only [Option.map_none', orN] at h₁
    rw [if_pos hlt] at h₁
    cases h₁
  have hrw := init_fresh_ok derive st name c₁ e₁ hfresh hv₁ hc₁ hnb
  have h₁' := h₁
  rw [hrw] at h₁'
  simp only [Except.ok.injEq] at h₁'
  have hmeta1 : (BF.init derive st name c₁ e₁).1.metas ("bfmeta:" ++ name)
      = some ⟨e₁, (derive c₁ e₁).1, (derive c₁ e₁).2, c₁,
        (derive c₁ e₁).1 * (derive c₁ e₁).2, 0⟩ := by
    rw [hrw]
    simp
  have hrw2 := init_persisted_ok derive (BF.init derive st name c₁ e₁).1 name
    c₂ e₂ _ hmeta1 hv₂ hc₂ (ne_of_gt hv₁.1) hns hbps
    (Nat.pos_iff_ne_zero.mp hc₁) (Nat.mul_ne_zero hns hbps) hnb
  rw [hrw2] at h₂
  simp only [Except.ok.injEq] at h₂
  rw [← h₁', ← h₂, hrw2]
  exact ⟨rfl, rfl, rfl, rfl, rfl, rfl⟩

def halfQ : ℚ := ⟨1, 2, by decide, Nat.coprime_one_left 2⟩

def quarterQ : ℚ := ⟨1, 4, by decide, Nat.coprime_one_left 4⟩

/-- Witness for C5: first construction with `(capacity, error_rate) = (5, 1/2)`
against a fresh store, second with `(7, 1/4)`; the config of the second equals
the persisted config of the first. -/
theorem init_persisted_config_precedence_witness :
    (⟨"f", halfQ, 2, 3, 5, 6, 0⟩ : BF).error_rate
        = (⟨"f", halfQ, 2, 3, 5, 6, 0⟩ : BF).error_rate ∧
    (⟨"f", halfQ, 2, 3, 5, 6, 0⟩ : BF).num_slices
        = (⟨"f", halfQ, 2, 3, 5, 6, 0⟩ : BF).num_slices ∧
    (⟨"f", halfQ, 2, 3, 5, 6, 0⟩ : BF).bits_per_slice
        = (⟨"f", halfQ, 2, 3, 5, 6, 0⟩ : BF).bits_per_slice ∧
    (⟨"f", halfQ, 2, 3, 5, 6, 0⟩ : BF).capacity
        = (⟨"f", halfQ, 2, 3, 5, 6, 0⟩ : BF).capacity ∧
    (⟨"f", halfQ, 2, 3, 5, 6, 0⟩ : BF).num_bits
        = (⟨"f", halfQ, 2, 3, 5, 6, 0⟩ : BF).num_bits ∧
    (BF.init (fun _ _ => (2, 3))
        (BF.init (fun _ _ => (2, 3)) emptyStore "f" 5 halfQ).1 "f" 7 quarterQ).1
      = (BF.init (fun _ _ => (2, 3)) emptyStore "f" 5 halfQ).1 :=
  init_persisted_config_precedence (fun _ _ => (2, 3)) emptyStore "f" 5 7
    halfQ quarterQ ⟨"f", halfQ, 2, 3, 5, 6, 0⟩ ⟨"f", halfQ, 2, 3, 5, 6, 0⟩
    rfl (by decide) (by decide) (by decide) (by decide)

/-! ## Generation names: decimal rendering and byte-wise order

Python renders the generation suffix with an f-string (`f'{name}:bf{i}'`,
decimal digits, no padding) and sorts the registry entries as byte strings
(`sorted(...)` over the bytes returned by `smembers`, line 244). -/

/-- One decimal digit as a character (only digits `0..9` arise). -/
def digitChar (d : ℕ) : Char :=
  match d with
  | 0 => '0' | 1 => '1' | 2 => '2' | 3 => '3' | 4 => '4'
  | 5 => '5' | 6 => '6' | 7 => '7' | 8 => '8' | _ => '9'

/-- Little-endian decimal digits of `n` (with fuel; `fuel ≥ n` suffices). -/
def natDigits : ℕ → ℕ → List ℕ
  | 0, _ => []
  | fuel + 1, n => if n = 0 then [] else n % 10 :: natDigits fuel (n / 10)

/-- Decimal rendering of a natural number, as Python's `str`. -/
def natStr (n : ℕ) : String :=
  if n = 0 then "0" else ((natDigits n n).reverse.map digitChar).asString

/-- `f'{base}:bf{i}'`: the name of generation `i` of a scalable filter. -/
def bfName (base : String) (i : ℕ) : String := base ++ ":bf" ++ natStr i

/-- Value of a little-endian decimal digit list. -/
def decVal : List ℕ → ℕ
  | [] => 0
  | d :: ds => d + 10 * decVal ds

lemma decVal_natDigits : ∀ (fuel n : ℕ), n ≤ fuel → decVal (natDigits fuel n) = n := by
  intro fuel
  induction fuel with
  | zero => intro n hn; interval_cases n; rfl
  | succ fuel ih =>
    intro n hn
    rw [natDigits]
    split_ifs with h0
    · simp [decVal, h0]
    · have hdiv : n / 10 ≤ fuel := by
        have := Nat.div_lt_self (Nat.pos_of_ne_zero h0) (by norm_num : (1:ℕ) < 10)
        omega
      rw [decVal, ih (n / 10) hdiv]
      omega

lemma natDigits_lt_ten : ∀ (fuel n : ℕ), ∀ d ∈ natDigits fuel n, d < 10 := by
  intro fuel
  induction fuel with
  | zero => intro n d hd; cases hd
  | succ fuel ih =>
    intro n d hd
    rw [natDigits] at hd
    split_ifs at hd with h0
    · cases hd
    · rcases List.mem_cons.1 hd with rfl | hd
      · exact Nat.mod_lt _ (by norm_num)
      · exact ih _ d hd

lemma digitChar_inj {d e : ℕ} (hd : d < 10) (he : e < 10)
    (h : digitChar d = digitChar e) : d = e := by
  interval_cases d <;> interval_cases e <;> simp_all [digitChar]

lemma map_digitChar_inj : ∀ (l₁ l₂ : List ℕ), (∀ d ∈ l₁, d < 10) →
    (∀ d ∈ l₂, d < 10) → l₁.map digitChar = l₂.map digitChar → l₁ = l₂ := by
  intro l₁
  induction l₁ with
  | nil => intro l₂ _ _ h; cases l₂ <;> simp_all
  | cons a l₁ ih =>
    intro l₂ h₁ h₂ h
    cases l₂ with
    | nil => simp_all
    | cons b l₂ =>
      simp only [List.map_cons, List.cons.injEq] at h
      have ha : a = b := digitChar_inj (h₁ a (by simp)) (h₂ b (by simp)) h.1
      have := ih l₂ (fun d hd => h₁ d (by simp [hd])) (fun d hd => h₂ d (by simp [hd])) h.2
      rw [ha, this]

lemma natStr_inj : Function.Injective natStr := by
  intro a b h
  unfold natStr at h
  split_ifs at h with ha hb hb
  · omega
  · exfalso
    have hchars := congrArg (fun s => s.data) h
    simp [List.asString] at hchars
    have h2 : List.map digitChar (natDigits b b) = ['0'] := by
      have h3 := congrArg List.reverse hchars
      simp only [List.reverse_reverse, List.reverse_cons, List.reverse_nil,
        List.nil_append] at h3
      exact h3.symm
    have hzero : natDigits b b = [0] := by
      refine map_digitChar_inj _ _ (natDigits_lt_ten b b) ?_ ?_
      · intro d hd; simp at hd; omega
      · simpa [digitChar] using h2
    have hv := decVal_natDigits b b le_rfl
    rw [hzero] at hv
    simp [decVal] at hv
    omega
  · exfalso
    have hchars := congrArg (fun s => s.data) h
    simp [List.asString] at hchars
    have h2 : List.map digitChar (natDigits a a) = ['0'] := by
      have h3 := congrArg List.reverse hchars
      simpa using h3
    have hzero : natDigits a a = [0] := by
      refine map_digitChar_inj _ _ (natDigits_lt_ten a a) ?_ ?_
      · intro d hd; simp at hd; omega
      · simpa [digitChar] using h2
    have hv := decVal_natDigits a a le_rfl
    rw [hzero] at hv
    simp [decVal] at hv
    omega
  · have hchars := congrArg (fun s => s.data) h
    simp only [List.asString] at hchars
    have hrev := List.reverse_injective
      (map_digitChar_inj _ _ (fun d hd => natDigits_lt_ten a a d (List.mem_reverse.mp hd))
        (fun d hd => natDigits_lt_ten b b d (List.mem_reverse.mp hd)) hchars)
    have va := decVal_natDigits a a le_rfl
    have vb := decVal_natDigits b b le_rfl
    rw [← va, ← vb, hrev]

/-- UTF-8 code units of an ASCII name (the registry holds the names as byte
strings; all characters involved are ASCII, one byte per char). -/
def bytesOf (s : String) : List ℕ := s.data.map Char.toNat

/-- Lexicographic `≤` on byte strings: Python's comparison of `bytes`. -/
def leBytes : List ℕ → List ℕ → Bool
  | [], _ => true
  | _ :: _, [] => false
  | a :: as, b :: bs => if a < b then true else if b < a then false else leBytes as bs

/-- `sorted(...)` order on names. -/
def strLeP (a b : String) : Prop := leBytes (bytesOf a) (bytesOf b) = true

instance : DecidableRel strLeP := fun a b => by unfold strLeP; infer_instance

/-- `sorted(list(connection.smembers(name)))` (line 244). -/
def sortNames (l : List String) : List String := List.insertionSort strLeP l

/-- The generation names in creation order. -/
def creationNames (base : String) (n : ℕ) : List String :=
  (List.range n).map (bfName base)

lemma bytesOf_append (s t : String) :
    bytesOf (s ++ t) = bytesOf s ++ bytesOf t := by
  simp [bytesOf, String.data_append]

lemma leBytes_append_cancel : ∀ (p a b : List ℕ),
    leBytes (p ++ a) (p ++ b) = leBytes a b := by
  intro p
  induction p with
  | nil => intro a b; rfl
  | cons c p ih =>
    intro a b
    show (if c < c then true else if c < c then false else leBytes (p ++ a) (p ++ b))
      = leBytes a b
    rw [if_neg (lt_irrefl c), if_neg (lt_irrefl c), ih]

lemma bfName_decomp (base : String) (i : ℕ) :
    bfName base i = (base ++ ":bf") ++ natStr i := by
  simp [bfName, String.append_assoc]

lemma bfName_inj (base : String) {i j : ℕ} (h : bfName base i = bfName base j) :
    i = j := by
  rw [bfName_decomp, bfName_decomp] at h
  have hdata := congrArg (fun s => s.data) h
  simp only [String.data_append] at hdata
  have := List.append_cancel_left hdata
  exact natStr_inj (by apply String.ext; exact this)

lemma bfName_le_of_le (base : String) {i j : ℕ} (hij : i ≤ j) (hj : j ≤ 9) :
    strLeP (bfName base i) (bfName base j) := by
  unfold strLeP
  simp only [bfName_decomp, bytesOf_append]
  rw [leBytes_append_cancel]
  interval_cases j <;> interval_cases i <;> decide

/-- In creation order the names are sorted (byte-wise) as long as every suffix
is a single digit, i.e. for at most 10 generations. -/
lemma creationNames_sorted (base : String) {n : ℕ} (hn : n ≤ 10) :
    List.Sorted strLeP (creationNames base n) := by
  unfold creationNames List.Sorted
  rw [List.pairwise_map]
  have hp : List.Pairwise (· < ·) (List.range n) := List.pairwise_lt_range n
  refine hp.imp_of_mem ?_
  intro i j hi hj hij
  have hj9 : j ≤ 9 := by
    have := List.mem_range.mp hj
    omega
  exact bfName_le_of_le base (le_of_lt hij) hj9

/-! ## ScalableBloomFilter (lines 221-342) -/

/-- In-memory state of a `ScalableBloomFilter` object. -/
structure SBF where
  name : String
  error_rate : ℚ
  scale : ℕ
  ratio : ℚ
  initial_capacity : ℕ
  filters : List BF
deriving DecidableEq

def SBF.metaName (s : SBF) : String := "sbfmeta:" ++ s.name

/-- Create a new generation (`_get_next_filter` creation paths, lines 259-268
and 271-280): construct a `BloomFilter` under `nm`, append it to the chain and
register its name in the redis set. -/
def SBF.createGen (derive : ℕ → ℚ → ℕ × ℕ) (st : Store) (s : SBF)
    (nm : String) (cap : ℕ) (er : ℚ) : Store × Except String (BF × SBF) :=
  match BF.init derive st nm cap er with
  | (st', .error e) => (st', .error e)
  | (st', .ok bf) =>
    (st'.sadd s.name bf.name, .ok (bf, {s with filters := s.filters ++ [bf]}))

/-- `_get_next_filter` (lines 258-281): no generation → create generation 0
with `(initial_capacity, error_rate)`; newest generation full
(`count >= capacity`) → create generation `len(filters)` with capacity
`min(capacity * scale, 1_000_000_000)` and error rate
`max(error_rate * ratio, 0.000001)`; otherwise return the newest generation
unchanged. -/
def SBF.getNext (derive : ℕ → ℚ → ℕ × ℕ) (st : Store) (s : SBF) :
    Store × Except String (BF × SBF) :=
  match s.filters.getLast? with
  | none => SBF.createGen derive st s (bfName s.name 0) s.initial_capacity s.error_rate
  | some bf0 =>
    if bf0.capacity ≤ bf0.count then
      SBF.createGen derive st s (bfName s.name s.filters.length)
        (min (bf0.capacity * s.scale) 1000000000)
        (max (bf0.error_rate * s.ratio) (1 / 1000000))
    else (st, .ok (bf0, s))

/-- `__contains__` (lines 283-287): scan the generations newest-to-oldest. -/
def SBF.contains (df : DigestFamily) (st : Store) (s : SBF) (key : Key) : Bool :=
  s.filters.reverse.any fun f => BF.contains df st f key

/-- `ScalableBloomFilter.add` (lines 289-306): return true without mutation if
any generation already contains the key, else add to the next writable
generation (whose updated count replaces the chain's last element). -/
def SBF.add (df : DigestFamily) (derive : ℕ → ℚ → ℕ × ℕ) (st : Store)
    (s : SBF) (key : Key) : Store × Except String (Bool × SBF) :=
  if SBF.contains df st s key then (st, .ok (true, s))
  else
    match SBF.getNext derive st s with
    | (st', .error e) => (st', .error e)
    | (st', .ok (bf, s')) =>
      match BF.add df st' bf key with
      | (st'', .error e) => (st'', .error e)
      | (st'', .ok (b, bf')) =>
        (st'', .ok (b, {s' with filters := s'.filters.dropLast ++ [bf']}))

/-- The `while` loop of `ScalableBloomFilter.bulk_add` (lines 308-315), with
explicit fuel; `none` marks fuel exhaustion (the loop would still be
running).  Each iteration takes the next writable generation, carves the chunk
`keys[index : index + min(capacity - count, len(keys))]`, bulk-adds it and
advances the index by the chunk size. -/
def SBF.bulkAddLoop (df : DigestFamily) (derive : ℕ → ℚ → ℕ × ℕ) :
    ℕ → Store → SBF → List Key → ℕ → Option (Store × Except String SBF)
  | fuel, st, s, keys, index =>
    if index < keys.length then
      match fuel with
      | 0 => none
      | fuel + 1 =>
        match SBF.getNext derive st s with
        | (st', .error e) => some (st', .error e)
        | (st', .ok (bf, s')) =>
          let chunkSz := min (bf.capacity - bf.count) keys.length
          let chunk := (keys.drop index).take chunkSz
          match BF.bulkAdd df st' bf chunk with
          | (st'', .error e) => some (st'', .error e)
          | (st'', .ok bf') =>
            SBF.bulkAddLoop df derive fuel st''
              {s' with filters := s'.filters.dropLast ++ [bf']} keys
              (index + chunkSz)
    else some (st, .ok s)

/-- `bulk_add`: the loop advances by at least one key per iteration whenever
every writable generation has spare capacity, so `keys.length + 1` iterations
suffice; fuel exhaustion (the unbounded Python loop still running) maps to an
explicit marker. -/
def SBF.bulkAdd (df : DigestFamily) (derive : ℕ → ℚ → ℕ × ℕ) (st : Store)
    (s : SBF) (keys : List Key) : Store × Except String SBF :=
  match SBF.bulkAddLoop df derive (keys.length + 1) st s keys 0 with
  | some r => r
  | none => (st, .error "loop did not terminate")

/-- Reconstruction of the generation objects (line 245-248): one
`BloomFilter(connection, name, initial_capacity)` per registered name, in
sorted order; the `error_rate` argument is the constructor default `0.001`
(the persisted per-generation config overrides both). -/
def initFilters (derive : ℕ → ℚ → ℕ × ℕ) :
    Store → List String → ℕ → Store × Except String (List BF)
  | st, [], _ => (st, .ok [])
  | st, n :: rest, cap =>
    match BF.init derive st n cap (1 / 1000) with
    | (st', .error e) => (st', .error e)
    | (st', .ok bf) =>
      match initFilters derive st' rest cap with
      | (st'', .error e) => (st'', .error e)
      | (st'', .ok fs) => (st'', .ok (bf :: fs))

/-- `ScalableBloomFilter.__init__` (lines 225-248): or-chained persisted
metadata, metadata creation when absent, then reconstruction of the chain from
the *sorted* registry entries. -/
def SBF.init (derive : ℕ → ℚ → ℕ × ℕ) (st : Store) (name : String)
    (initial_capacity : ℕ) (error_rate : ℚ) (scale : ℕ) (ratio : ℚ) :
    Store × Except String SBF :=
  let mname := "sbfmeta:" ++ name
  let meta := st.sbfMetas mname
  let er := orQ (meta.map (·.error_rate)) error_rate
  let sc := orN (meta.map (·.scale)) scale
  let ra := orQ (meta.map (·.ratio)) ratio
  let ic := orN (meta.map (·.initial_capacity)) initial_capacity
  let st₁ := if meta.isSome then st
    else {st with sbfMetas := fun n =>
      if n = mname then some ⟨er, sc, ra, ic⟩ else st.sbfMetas n}
  match initFilters derive st₁ (sortNames (st₁.sets name)) ic with
  | (st₂, .error e) => (st₂, .error e)
  | (st₂, .ok fs) => (st₂, .ok ⟨name, er, sc, ra, ic, fs⟩)

/-! ## C4: the growth policy -/

/-- **C4**: growth policy of `_get_next_filter`.  With no generation, the next
writable generation is generation 0, created with
`(initial_capacity, error_rate)` and appended; when the newest generation has
`count >= capacity`, a generation named with suffix `len(filters)` is created
with `capacity = min(previous * scale, 1_000_000_000)` and
`error_rate = max(previous * ratio, 0.000001)` and appended; otherwise the
newest generation is returned and the chain and store are unchanged.  The
created generation's stated capacity/error-rate/fresh count hold whenever its
name has no persisted metadata and the arguments pass validation. -/
theorem getNext_growth_policy (derive : ℕ → ℚ → ℕ × ℕ) (st : Store) (s : SBF) :
    (∀ bf0, s.filters.getLast? = some bf0 → bf0.count < bf0.capacity →
      SBF.getNext derive st s = (st, .ok (bf0, s))) ∧
    (s.filters = [] → st.metas ("bfmeta:" ++ bfName s.name 0) = none →
      (0 < s.error_rate ∧ s.error_rate < 1) → 0 < s.initial_capacity →
      ¬2 ^ 32 < (derive s.initial_capacity s.error_rate).1 *
        (derive s.initial_capacity s.error_rate).2 →
      ∃ bf, (SBF.getNext derive st s).2
          = .ok (bf, {s with filters := s.filters ++ [bf]}) ∧
        bf.name = bfName s.name 0 ∧ bf.capacity = s.initial_capacity ∧
        bf.error_rate = s.error_rate ∧ bf.count = 0) ∧
    (∀ bf0, s.filters.getLast? = some bf0 → bf0.capacity ≤ bf0.count →
      st.metas ("bfmeta:" ++ bfName s.name s.filters.length) = none →
      (0 < max (bf0.error_rate * s.ratio) (1 / 1000000) ∧
        max (bf0.error_rate * s.ratio) (1 / 1000000) < 1) →
      0 < min (bf0.capacity * s.scale) 1000000000 →
      ¬2 ^ 32 < (derive (min (bf0.capacity * s.scale) 1000000000)
          (max (bf0.error_rate * s.ratio) (1 / 1000000))).1 *
        (derive (min (bf0.capacity * s.scale) 1000000000)
          (max (bf0.error_rate * s.ratio) (1 / 1000000))).2 →
      ∃ bf, (SBF.getNext derive st s).2
          = .ok (bf, {s with filters := s.filters ++ [bf]}) ∧
        bf.name = bfName s.name s.filters.length ∧
        bf.capacity = min (bf0.capacity * s.scale) 1000000000 ∧
        bf.error_rate = max (bf0.error_rate * s.ratio) (1 / 1000000) ∧
        bf.count = 0) := by
  refine ⟨?_, ?_, ?_⟩
  · intro bf0 hlast hlt
    rw [SBF.getNext, hlast]
    dsimp only
    rw [if_neg (by omega)]
  · intro hempty hfresh hv hcap hnb
    have hlast : s.filters.getLast? = none := by rw [hempty]; rfl
    rw [SBF.getNext, hlast]
    dsimp only
    rw [SBF.createGen, init_fresh_ok derive st (bfName s.name 0)
      s.initial_capacity s.error_rate hfresh hv hcap hnb]
    exact ⟨_, rfl, rfl, rfl, rfl, rfl⟩
  · intro bf0 hlast hfull hfresh hv hcap hnb
    rw [SBF.getNext, hlast]
    dsimp only
    rw [if_pos hfull]
    rw [SBF.createGen, init_fresh_ok derive st (bfName s.name s.filters.length)
      _ _ hfresh hv hcap hnb]
    exact ⟨_, rfl, rfl, rfl, rfl, rfl⟩

/-- Witness for C4 at a concrete configuration (an empty chain with valid
parameters; all three policy branches instantiated). -/
theorem getNext_growth_policy_witness :
    (∀ bf0, ([] : List BF).getLast? = some bf0 → bf0.count < bf0.capacity →
      SBF.getNext (fun _ _ => (1, 1)) emptyStore ⟨"s", halfQ, 2, halfQ, 1, []⟩
        = (emptyStore, .ok (bf0, ⟨"s", halfQ, 2, halfQ, 1, []⟩))) ∧
    (([] : List BF) = [] → emptyStore.metas ("bfmeta:" ++ bfName "s" 0) = none →
      (0 < halfQ ∧ halfQ < 1) → (0 : ℕ) < 1 →
      ¬2 ^ 32 < ((fun (_ : ℕ) (_ : ℚ) => ((1 : ℕ), (1 : ℕ))) 1 halfQ).1 *
        ((fun (_ : ℕ) (_ : ℚ) => ((1 : ℕ), (1 : ℕ))) 1 halfQ).2 →
      ∃ bf, (SBF.getNext (fun _ _ => (1, 1)) emptyStore ⟨"s", halfQ, 2, halfQ, 1, []⟩).2
          = .ok (bf, {(⟨"s", halfQ, 2, halfQ, 1, []⟩ : SBF) with
              filters := ([] : List BF) ++ [bf]}) ∧
        bf.name = bfName "s" 0 ∧ bf.capacity = 1 ∧
        bf.error_rate = halfQ ∧ bf.count = 0) ∧
    (∀ bf0, ([] : List BF).getLast? = some bf0 → bf0.capacity ≤ bf0.count →
      emptyStore.metas ("bfmeta:" ++ bfName "s" 0) = none →
      (0 < max (bf0.error_rate * halfQ) (1 / 1000000) ∧
        max (bf0.error_rate * halfQ) (1 / 1000000) < 1) →
      0 < min (bf0.capacity * 2) 1000000000 →
      ¬2 ^ 32 < ((1 : ℕ)) * ((1 : ℕ)) →
      ∃ bf, (SBF.getNext (fun _ _ => (1, 1)) emptyStore ⟨"s", halfQ, 2, halfQ, 1, []⟩).2
          = .ok (bf, {(⟨"s", halfQ, 2, halfQ, 1, []⟩ : SBF) with
              filters := ([] : List BF) ++ [bf]}) ∧
        bf.name = bfName "s" 0 ∧
        bf.capacity = min (bf0.capacity * 2) 1000000000 ∧
        bf.error_rate = max (bf0.error_rate * halfQ) (1 / 1000000) ∧
        bf.count = 0) :=
  getNext_growth_policy (fun _ _ => (1, 1)) emptyStore ⟨"s", halfQ, 2, halfQ, 1, []⟩

/-! ## C2: no false negatives -/

lemma sadd_bits (st : Store) (n v : String) : (st.sadd n v).bits = st.bits := by
  unfold Store.sadd; split_ifs <;> rfl

lemma init_bits (derive : ℕ → ℚ → ℕ × ℕ) (st : Store) (name : String)
    (cap : ℕ) (er : ℚ) : (BF.init derive st name cap er).1.bits = st.bits := by
  rw [BF.init]
  dsimp only
  split_ifs <;> rfl

lemma add_bits_mono (df : DigestFamily) (st : Store) (f : BF) (key : Key)
    {x : String × ℕ} (hx : x ∈ st.bits) : x ∈ (BF.add df st f key).1.bits := by
  rw [BF.add]
  split_ifs with hc
  · exact hx
  · dsimp only
    split
    · exact setbits_mono _ _ _ hx
    · rw [hincrby_bits]
      exact setbits_mono _ _ _ hx

lemma foldl_setbits_mono (df : DigestFamily) (f : BF) :
    ∀ (keys : List Key) (st : Store) (acc : List Bool) {x : String × ℕ},
      x ∈ st.bits →
      x ∈ (keys.foldl
        (fun (acc : Store × List Bool) k =>
          let r := acc.1.setbits f.name (BF.positions df f k)
          (r.1, acc.2 ++ r.2)) (st, acc)).1.bits := by
  intro keys
  induction keys with
  | nil => intro st acc x hx; exact hx
  | cons k keys ih =>
    intro st acc x hx
    simp only [List.foldl_cons]
    exact ih _ _ (setbits_mono _ _ _ hx)

lemma bulkAdd_bits_mono (df : DigestFamily) (st : Store) (f : BF)
    (keys : List Key) {x : String × ℕ} (hx : x ∈ st.bits) :
    x ∈ (BF.bulkAdd df st f keys).1.bits := by
  rw [BF.bulkAdd]
  split_ifs with hc
  · exact hx
  · dsimp only
    rw [hincrby_bits]
    exact foldl_setbits_mono df f keys st [] hx

lemma createGen_bits (derive : ℕ → ℚ → ℕ × ℕ) (st : Store) (s : SBF)
    (nm : String) (cap : ℕ) (er : ℚ) :
    (SBF.createGen derive st s nm cap er).1.bits = st.bits := by
  unfold SBF.createGen
  rcases hinit : BF.init derive st nm cap er with ⟨st', r⟩
  have h1 : st'.bits = st.bits := by
    have := congrArg (fun p => Prod.fst p) hinit
    simp only at this
    rw [← this, init_bits]
  cases r
  · exact h1
  · rw [sadd_bits]
    exact h1

lemma getNext_bits (derive : ℕ → ℚ → ℕ × ℕ) (st : Store) (s : SBF) :
    (SBF.getNext derive st s).1.bits = st.bits := by
  rw [SBF.getNext]
  rcases s.filters.getLast? with _ | bf0
  · exact createGen_bits ..
  · dsimp only
    split_ifs
    · exact createGen_bits ..
    · rfl

lemma sbf_add_bits_mono (df : DigestFamily) (derive : ℕ → ℚ → ℕ × ℕ)
    (st : Store) (s : SBF) (key : Key) {x : String × ℕ} (hx : x ∈ st.bits) :
    x ∈ (SBF.add df derive st s key).1.bits := by
  rw [SBF.add]
  split_ifs with hc
  · exact hx
  · rcases hnext : SBF.getNext derive st s with ⟨st', r⟩
    have h1 : x ∈ st'.bits := by
      have := congrArg (fun p => Prod.fst p) hnext
      simp only at this
      rw [← this, getNext_bits]
      exact hx
    cases r with
    | error e => exact h1
    | ok p =>
      rcases p with ⟨bf, s'⟩
      dsimp only
      rcases hadd : BF.add df st' bf key with ⟨st'', rb⟩
      have h2 : x ∈ st''.bits := by
        have := congrArg (fun p => Prod.fst p) hadd
        simp only at this
        rw [← this]
        exact add_bits_mono df st' bf key h1
      cases rb with
      | error e => exact h2
      | ok p2 => rcases p2 with ⟨b, bf'⟩; exact h2

lemma bulkAddLoop_bits_mono (df : DigestFamily) (derive : ℕ → ℚ → ℕ × ℕ)
    (keys : List Key) :
    ∀ (fuel : ℕ) (st : Store) (s : SBF) (idx : ℕ)
      (r : Store × Except String SBF),
      SBF.bulkAddLoop df derive fuel st s keys idx = some r →
      ∀ {x : String × ℕ}, x ∈ st.bits → x ∈ r.1.bits := by
  intro fuel
  induction fuel with
  | zero =>
    intro st s idx r hr x hx
    rw [SBF.bulkAddLoop] at hr
    split_ifs at hr
    all_goals first
      | (cases hr; done)
      | (injection hr with h2; rw [← h2]; exact hx)
  | succ fuel ih =>
    intro st s idx r hr x hx
    rw [SBF.bulkAddLoop] at hr
    split_ifs at hr
    · rcases hnext : SBF.getNext derive st s with ⟨st', rn⟩
      rw [hnext] at hr
      have h1 : x ∈ st'.bits := by
        have := congrArg (fun p => Prod.fst p) hnext
        simp only at this
        rw [← this, getNext_bits]
        exact hx
      cases rn with
      | error e => cases hr; exact h1
      | ok p =>
        rcases p with ⟨bf, s'⟩
        dsimp only at hr
        rcases hbulk : BF.bulkAdd df st' bf
            ((keys.drop idx).take (min (bf.capacity - bf.count) keys.length))
          with ⟨st'', rb⟩
        rw [hbulk] at hr
        have h2 : x ∈ st''.bits := by
          have := congrArg (fun p => Prod.fst p) hbulk
          simp only at this
          rw [← this]
          exact bulkAdd_bits_mono df st' bf _ h1
        cases rb with
        | error e => cases hr; exact h2
        | ok bf' => exact ih _ _ _ _ hr h2
    · cases hr; exact hx

lemma sbf_bulkAdd_bits_mono (df : DigestFamily) (derive : ℕ → ℚ → ℕ × ℕ)
    (st : Store) (s : SBF) (keys : List Key) {x : String × ℕ}
    (hx : x ∈ st.bits) : x ∈ (SBF.bulkAdd df derive st s keys).1.bits := by
  rw [SBF.bulkAdd]
  rcases hloop : SBF.bulkAddLoop df derive (keys.length + 1) st s keys 0 with _ | r
  · exact hx
  · exact bulkAddLoop_bits_mono df derive keys _ st s 0 r hloop hx

/-- The mutating operations a caller may subsequently issue (`add`/`bulk_add`
on any plain or scalable filter sharing the store). -/
inductive Op where
  | bfAdd (f : BF) (k : Key)
  | bfBulk (f : BF) (ks : List Key)
  | sbfAdd (s : SBF) (k : Key)
  | sbfBulk (s : SBF) (ks : List Key)

def applyOp (df : DigestFamily) (derive : ℕ → ℚ → ℕ × ℕ) (st : Store) :
    Op → Store
  | .bfAdd f k => (BF.add df st f k).1
  | .bfBulk f ks => (BF.bulkAdd df st f ks).1
  | .sbfAdd s k => (SBF.add df derive st s k).1
  | .sbfBulk s ks => (SBF.bulkAdd df derive st s ks).1

def applyOps (df : DigestFamily) (derive : ℕ → ℚ → ℕ × ℕ) (st : Store)
    (ops : List Op) : Store :=
  ops.foldl (applyOp df derive) st

lemma applyOp_bits_mono (df : DigestFamily) (derive : ℕ → ℚ → ℕ × ℕ)
    (st : Store) (op : Op) {x : String × ℕ} (hx : x ∈ st.bits) :
    x ∈ (applyOp df derive st op).bits := by
  cases op with
  | bfAdd f k => exact add_bits_mono df st f k hx
  | bfBulk f ks => exact bulkAdd_bits_mono df st f ks hx
  | sbfAdd s k => exact sbf_add_bits_mono df derive st s k hx
  | sbfBulk s ks => exact sbf_bulkAdd_bits_mono df derive st s ks hx

lemma applyOps_bits_mono (df : DigestFamily) (derive : ℕ → ℚ → ℕ × ℕ) :
    ∀ (ops : List Op) (st : Store) {x : String × ℕ}, x ∈ st.bits →
      x ∈ (applyOps df derive st ops).bits := by
  intro ops
  induction ops with
  | nil => intro st x hx; exact hx
  | cons op ops ih =>
    intro st x hx
    exact ih _ (applyOp_bits_mono df derive st op hx)

lemma contains_of_all_set (df : DigestFamily) (st : Store) (f : BF) (key : Key)
    (h : ∀ p ∈ BF.positions df f key, (f.name, p) ∈ st.bits) :
    BF.contains df st f key = true := by
  rw [BF.contains, List.all_eq_true]
  intro p hp
  simp only [Store.getbit, decide_eq_true_eq]
  exact h p hp

lemma contains_all_set (df : DigestFamily) (st : Store) (f : BF) (key : Key)
    (h : BF.contains df st f key = true) :
    ∀ p ∈ BF.positions df f key, (f.name, p) ∈ st.bits := by
  rw [BF.contains, List.all_eq_true] at h
  intro p hp
  have := h p hp
  simpa [Store.getbit] using this

lemma contains_mono (df : DigestFamily) (f : BF) (key : Key) {st st' : Store}
    (hsub : ∀ x : String × ℕ, x ∈ st.bits → x ∈ st'.bits)
    (h : BF.contains df st f key = true) : BF.contains df st' f key = true :=
  contains_of_all_set df st' f key fun p hp =>
    hsub _ (contains_all_set df st f key h p hp)

lemma sbf_contains_of_mem (df : DigestFamily) (st : Store) (s : SBF)
    (key : Key) {bf : BF} (hmem : bf ∈ s.filters)
    (h : BF.contains df st bf key = true) :
    SBF.contains df st s key = true := by
  rw [SBF.contains, List.any_eq_true]
  exact ⟨bf, List.mem_reverse.mpr hmem, h⟩

lemma sbf_contains_mono (df : DigestFamily) (s : SBF) (key : Key)
    {st st' : Store} (hsub : ∀ x : String × ℕ, x ∈ st.bits → x ∈ st'.bits)
    (h : SBF.contains df st s key = true) :
    SBF.contains df st' s key = true := by
  rw [SBF.contains, List.any_eq_true] at h ⊢
  obtain ⟨bf, hmem, hbf⟩ := h
  exact ⟨bf, hmem, contains_mono df bf key hsub hbf⟩

/-- **C2**: no false negatives.  If `add(k)` on a `BloomFilter` (respectively
a `ScalableBloomFilter`) completes without error, then `contains(k)` is true
on the resulting store — the `ops = []` instance — and remains true after any
number of subsequent `add`/`bulk_add` calls on any filters sharing the store
(no flush or expire in between). -/
theorem no_false_negatives (df : DigestFamily) (derive : ℕ → ℚ → ℕ × ℕ)
    (st : Store) (f : BF) (s : SBF) (key : Key) (b : Bool) (f₁ : BF)
    (b' : Bool) (s₁ : SBF) :
    ((BF.add df st f key).2 = .ok (b, f₁) →
      ∀ ops : List Op,
        BF.contains df (applyOps df derive (BF.add df st f key).1 ops) f key
          = true) ∧
    ((SBF.add df derive st s key).2 = .ok (b', s₁) →
      ∀ ops : List Op,
        SBF.contains df (applyOps df derive (SBF.add df derive st s key).1 ops)
          s₁ key = true) := by
  constructor
  · intro h ops
    have hc := add_ok_not_over df st f key h
    have hset := add_bits_set df st f key hc
    exact contains_of_all_set df _ f key fun p hp =>
      applyOps_bits_mono df derive ops _ (hset p hp)
  · intro h ops
    by_cases hc : SBF.contains df st s key = true
    · have heq : SBF.add df derive st s key = (st, .ok (true, s)) := by
        rw [SBF.add, if_pos hc]
      rw [heq] at h ⊢
      simp only [Except.ok.injEq, Prod.mk.injEq] at h
      rw [← h.2]
      exact sbf_contains_mono df s key
        (fun x hx => applyOps_bits_mono df derive ops st hx) hc
    · rw [SBF.add, if_neg hc] at h ⊢
      rcases hnext : SBF.getNext derive st s with ⟨st', r⟩
      rw [hnext] at h
      cases r with
      | error e => cases h
      | ok p =>
        rcases p with ⟨bf, s2⟩
        dsimp only at h ⊢
        rcases hadd : BF.add df st' bf key with ⟨st'', rb⟩
        rw [hadd] at h
        cases rb with
        | error e => cases h
        | ok p2 =>
          rcases p2 with ⟨b2, bf'⟩
          dsimp only at h ⊢
          simp only [Except.ok.injEq, Prod.mk.injEq] at h
          have hsnd : (BF.add df st' bf key).2 = .ok (b2, bf') := by
            rw [hadd]
          have hfst : (BF.add df st' bf key).1 = st'' := by rw [hadd]
          have hcb := add_ok_not_over df st' bf key hsnd
          obtain ⟨hname, _, hns, hbps, _, _⟩ := add_ok_params df st' bf key hsnd
          have hpos : BF.positions df bf' key = BF.positions df bf key := by
            unfold BF.positions; rw [hns, hbps]
          have hset := add_bits_set df st' bf key hcb
          have hbf' : BF.contains df (applyOps df derive st'' ops) bf' key
              = true := by
            apply contains_of_all_set
            intro p hp
            rw [hpos] at hp
            rw [hname]
            apply applyOps_bits_mono
            rw [← hfst]
            exact hset p hp
          rw [← h.2]
          exact sbf_contains_of_mem df _ _ key
            (by simp) hbf'

/-- Witness for C2: a fresh single-slice filter and a fresh scalable filter
each receiving key `[5]`; membership holds after no further operations. -/
theorem no_false_negatives_witness :
    BF.contains ⟨fun n _ => List.replicate n 0, fun n _ => by simp⟩
      (applyOps ⟨fun n _ => List.replicate n 0, fun n _ => by simp⟩
        (fun _ _ => (1, 1))
        (BF.add ⟨fun n _ => List.replicate n 0, fun n _ => by simp⟩ emptyStore
          ⟨"f", 0, 1, 1, 2, 1, 0⟩ [5]).1 [])
      ⟨"f", 0, 1, 1, 2, 1, 0⟩ [5] = true ∧
    SBF.contains ⟨fun n _ => List.replicate n 0, fun n _ => by simp⟩
      (applyOps ⟨fun n _ => List.replicate n 0, fun n _ => by simp⟩
        (fun _ _ => (1, 1))
        (SBF.add ⟨fun n _ => List.replicate n 0, fun n _ => by simp⟩
          (fun _ _ => (1, 1)) emptyStore ⟨"s", halfQ, 2, halfQ, 1, []⟩ [5]).1 [])
      ⟨"s", halfQ, 2, halfQ, 1, [⟨"s:bf0", halfQ, 1, 1, 1, 1, 1⟩]⟩ [5]
      = true := by
  constructor
  · exact (no_false_negatives ⟨fun n _ => List.replicate n 0, fun n _ => by simp⟩
      (fun _ _ => (1, 1)) emptyStore ⟨"f", 0, 1, 1, 2, 1, 0⟩
      ⟨"s", halfQ, 2, halfQ, 1, []⟩ [5] false ⟨"f", 0, 1, 1, 2, 1, 1⟩ false
      ⟨"s", halfQ, 2, halfQ, 1, []⟩).1 (by decide) []
  · exact (no_false_negatives ⟨fun n _ => List.replicate n 0, fun n _ => by simp⟩
      (fun _ _ => (1, 1)) emptyStore ⟨"f", 0, 1, 1, 2, 1, 0⟩
      ⟨"s", halfQ, 2, halfQ, 1, []⟩ [5] false ⟨"f", 0, 1, 1, 2, 1, 1⟩ false
      ⟨"s", halfQ, 2, halfQ, 1,
        [⟨"s:bf0", halfQ, 1, 1, 1, 1, 1⟩]⟩).2 (by decide) []

/-! ## C9: the generation chain -/

lemma init_ok_name (derive : ℕ → ℚ → ℕ × ℕ) (st : Store) (name : String)
    (cap : ℕ) (er : ℚ) {bf : BF}
    (h : (BF.init derive st name cap er).2 = .ok bf) : bf.name = name := by
  rw [BF.init] at h
  dsimp only at h
  split_ifs at h
  all_goals (cases h; exact rfl)

/-- A successful `bulk_add` changes at most the count of the filter object. -/
lemma bulkAdd_ok_params (df : DigestFamily) (st : Store) (f : BF)
    (keys : List Key) {f₁ : BF} (h : (BF.bulkAdd df st f keys).2 = .ok f₁) :
    f₁.name = f.name ∧ f₁.num_slices = f.num_slices ∧
    f₁.bits_per_slice = f.bits_per_slice ∧ f₁.capacity = f.capacity := by
  rw [BF.bulkAdd] at h
  split_ifs at h
  all_goals (cases h; exact ⟨rfl, rfl, rfl, rfl⟩)

lemma names_replace_last (l : List BF) (bf bf' : BF)
    (hlast : l.getLast? = some bf) (hname : bf'.name = bf.name) :
    (l.dropLast ++ [bf']).map (·.name) = l.map (·.name) := by
  have hne : l ≠ [] := by
    intro h0
    rw [h0] at hlast
    cases hlast
  have hget : l.getLast hne = bf := by
    have := List.getLast?_eq_getLast l hne
    rw [hlast] at this
    injection this with h2
    exact h2.symm
  conv_rhs => rw [← List.dropLast_append_getLast hne]
  rw [List.map_append, List.map_append, hget]
  simp [hname]

lemma getNext_ok_facts (derive : ℕ → ℚ → ℕ × ℕ) (st : Store) (s : SBF)
    {bf : BF} {s' : SBF} (h : (SBF.getNext derive st s).2 = .ok (bf, s')) :
    s'.name = s.name ∧ s'.filters.getLast? = some bf ∧
    (s'.filters.map (·.name) = s.filters.map (·.name) ∨
      s'.filters.map (·.name)
        = s.filters.map (·.name) ++ [bfName s.name s.filters.length]) := by
  rw [SBF.getNext] at h
  rcases hlast : s.filters.getLast? with _ | bf0 <;> rw [hlast] at h
  · have hempty : s.filters = [] := List.getLast?_eq_none_iff.mp hlast
    rw [SBF.createGen] at h
    rcases hinit : BF.init derive st (bfName s.name 0) s.initial_capacity
        s.error_rate with ⟨st2, ri⟩
    rw [hinit] at h
    cases ri with
    | error e => cases h
    | ok bfi =>
      dsimp only at h
      injection h with h2
      injection h2 with hb hs
      have hn := init_ok_name derive st _ _ _ (by rw [hinit] : _ = .ok bfi)
      refine ⟨by rw [← hs], ?_, Or.inr ?_⟩
      · rw [← hs, ← hb]
        simp
      · rw [← hs]
        simp [hempty, hn]
  · dsimp only at h
    split_ifs at h with hfull
    · rw [SBF.createGen] at h
      rcases hinit : BF.init derive st (bfName s.name s.filters.length)
          (min (bf0.capacity * s.scale) 1000000000)
          (max (bf0.error_rate * s.ratio) (1 / 1000000)) with ⟨st2, ri⟩
      rw [hinit] at h
      cases ri with
      | error e => cases h
      | ok bfi =>
        dsimp only at h
        injection h with h2
        injection h2 with hb hs
        have hn := init_ok_name derive st _ _ _ (by rw [hinit] : _ = .ok bfi)
        refine ⟨by rw [← hs], ?_, Or.inr ?_⟩
        · rw [← hs, ← hb]
          simp
        · rw [← hs]
          simp [hn]
    · injection h with h2
      injection h2 with hb hs
      exact ⟨by rw [← hs], by rw [← hs, ← hb]; exact hlast, Or.inl (by rw [← hs])⟩

lemma sbf_add_names (df : DigestFamily) (derive : ℕ → ℚ → ℕ × ℕ) (st : Store)
    (s : SBF) (key : Key) {b : Bool} {s₁ : SBF}
    (h : (SBF.add df derive st s key).2 = .ok (b, s₁)) :
    s₁.name = s.name ∧
    (s₁.filters.map (·.name) = s.filters.map (·.name) ∨
      s₁.filters.map (·.name)
        = s.filters.map (·.name) ++ [bfName s.name s.filters.length]) := by
  rw [SBF.add] at h
  split_ifs at h with hc
  · injection h with h2
    injection h2 with hb hs
    rw [← hs]
    exact ⟨rfl, Or.inl rfl⟩
  · rcases hnext : SBF.getNext derive st s with ⟨st', r⟩
    rw [hnext] at h
    cases r with
    | error e => cases h
    | ok p =>
      rcases p with ⟨bf, s2⟩
      dsimp only at h
      rcases hadd : BF.add df st' bf key with ⟨st'', rb⟩
      rw [hadd] at h
      cases rb with
      | error e => cases h
      | ok p2 =>
        rcases p2 with ⟨b2, bf'⟩
        dsimp only at h
        injection h with h2
        injection h2 with hb hs
        obtain ⟨hname2, hlast2, hdisj⟩ :=
          getNext_ok_facts derive st s (by rw [hnext] : _ = .ok (bf, s2))
        obtain ⟨hbfname, _, _, _⟩ :=
          add_ok_params df st' bf key (by rw [hadd] : _ = .ok (b2, bf'))
        have hrepl := names_replace_last s2.filters bf bf' hlast2 hbfname
        constructor
        · rw [← hs]
          exact hname2
        · rw [← hs]
          show (s2.filters.dropLast ++ [bf']).map (·.name) = _ ∨
            (s2.filters.dropLast ++ [bf']).map (·.name) = _
          rw [hrepl]
          exact hdisj

lemma bulkAddLoop_names (df : DigestFamily) (derive : ℕ → ℚ → ℕ × ℕ)
    (keys : List Key) :
    ∀ (fuel : ℕ) (st : Store) (s : SBF) (idx : ℕ)
      (st' : Store) (s' : SBF),
      SBF.bulkAddLoop df derive fuel st s keys idx = some (st', .ok s') →
      s'.name = s.name ∧
      ∃ suffix, s'.filters.map (·.name) = s.filters.map (·.name) ++ suffix := by
  intro fuel
  induction fuel with
  | zero =>
    intro st s idx st' s' hr
    by_cases hidx : idx < keys.length
    · rw [SBF.bulkAddLoop, if_pos hidx] at hr
      cases hr
    · rw [SBF.bulkAddLoop, if_neg hidx] at hr
      cases hr
      exact ⟨rfl, [], by simp⟩
  | succ fuel ih =>
    intro st s idx st' s' hr
    by_cases hidx : idx < keys.length
    swap
    · rw [SBF.bulkAddLoop, if_neg hidx] at hr
      cases hr
      exact ⟨rfl, [], by simp⟩
    · rw [SBF.bulkAddLoop, if_pos hidx] at hr
      rcases hnext : SBF.getNext derive st s with ⟨stA, rn⟩
      rw [hnext] at hr
      cases rn with
      | error e => cases hr
      | ok p =>
        rcases p with ⟨bf, s2⟩
        dsimp only at hr
        rcases hbulk : BF.bulkAdd df stA bf
            ((keys.drop idx).take (min (bf.capacity - bf.count) keys.length))
          with ⟨stB, rb⟩
        rw [hbulk] at hr
        cases rb with
        | error e => cases hr
        | ok bf2 =>
          obtain ⟨hname2, hlast2, hdisj⟩ :=
            getNext_ok_facts derive st s (by rw [hnext] : _ = .ok (bf, s2))
          obtain ⟨hbfname, _, _, _⟩ :=
            bulkAdd_ok_params df stA bf _ (by rw [hbulk] : _ = .ok bf2)
          have hrepl := names_replace_last s2.filters bf bf2 hlast2 hbfname
          obtain ⟨hn3, suffix, hsuf⟩ := ih _ _ _ _ _ hr
          constructor
          · rw [hn3]
            exact hname2
          · rcases hdisj with hd | hd
            · exact ⟨suffix, by rw [hsuf]; show (s2.filters.dropLast ++ [bf2]).map _ ++ _ = _; rw [hrepl, hd]⟩
            · refine ⟨[bfName s.name s.filters.length] ++ suffix, ?_⟩
              rw [hsuf]
              show (s2.filters.dropLast ++ [bf2]).map _ ++ _ = _
              rw [hrepl, hd]
              simp

lemma sbf_bulkAdd_names (df : DigestFamily) (derive : ℕ → ℚ → ℕ × ℕ)
    (st : Store) (s : SBF) (keys : List Key) {s' : SBF}
    (h : (SBF.bulkAdd df derive st s keys).2 = .ok s') :
    s'.name = s.name ∧
    ∃ suffix, s'.filters.map (·.name) = s.filters.map (·.name) ++ suffix := by
  rw [SBF.bulkAdd] at h
  rcases hloop : SBF.bulkAddLoop df derive (keys.length + 1) st s keys 0
    with _ | r
  · rw [hloop] at h
    cases h
  · rw [hloop] at h
    rcases r with ⟨stx, rx⟩
    dsimp only at h
    rw [h] at hloop
    exact bulkAddLoop_names df derive keys _ st s 0 stx s' hloop

lemma initFilters_names (derive : ℕ → ℚ → ℕ × ℕ) :
    ∀ (names : List String) (st : Store) (cap : ℕ) {fs : List BF},
      (initFilters derive st names cap).2 = .ok fs →
      fs.map (·.name) = names := by
  intro names
  induction names with
  | nil =>
    intro st cap fs h
    injection h with h2
    rw [← h2]
    rfl
  | cons n rest ih =>
    intro st cap fs h
    rw [initFilters] at h
    rcases hinit : BF.init derive st n cap (1 / 1000) with ⟨st', ri⟩
    rw [hinit] at h
    cases ri with
    | error e => cases h
    | ok bf =>
      dsimp only at h
      rcases hrest : initFilters derive st' rest cap with ⟨st'', rr⟩
      rw [hrest] at h
      cases rr with
      | error e => cases h
      | ok fs2 =>
        injection h with h2
        rw [← h2]
        have hn := init_ok_name derive st n cap (1 / 1000)
          (by rw [hinit] : _ = .ok bf)
        have := ih st' cap (by rw [hrest] : _ = .ok fs2)
        simp [hn, this]

lemma sbf_init_names (derive : ℕ → ℚ → ℕ × ℕ) (st : Store) (name : String)
    (ic : ℕ) (er : ℚ) (sc : ℕ) (ra : ℚ) {s' : SBF}
    (h : (SBF.init derive st name ic er sc ra).2 = .ok s') :
    s'.filters.map (·.name) = sortNames (st.sets name) := by
  rw [SBF.init] at h
  by_cases hmeta : (st.sbfMetas ("sbfmeta:" ++ name)).isSome = true
  · rw [if_pos hmeta] at h
    split at h
    · cases h
    · rename_i st₂ fs heq
      injection h with h2
      rw [← h2]
      exact initFilters_names derive _ _ _ (by rw [heq] : _ = .ok fs)
  · rw [if_neg hmeta] at h
    split at h
    · cases h
    · rename_i st₂ fs heq
      injection h with h2
      rw [← h2]
      exact initFilters_names derive _ _ _ (by rw [heq] : _ = .ok fs)

/-- Sorting reproduces creation order while every suffix is a single digit. -/
lemma sortNames_creation (base : String) {n : ℕ} (hn : n ≤ 10) :
    sortNames (creationNames base n) = creationNames base n :=
  List.Sorted.insertionSort_eq (creationNames_sorted base hn)

/-- **C9** (amended): the generation chain is append-only — `_get_next_filter`,
`add` and `bulk_add` can only extend the name sequence of the chain, new
generations carrying the suffix of the current length — and re-constructing a
`ScalableBloomFilter` orders the chain by the byte-wise sort of the registered
names, which reproduces the creation order whenever at most 10 generations are
persisted (single-digit suffixes).  For 11 or more generations the
lexicographic sort breaks creation order (see the counterexample). -/
theorem generation_chain_append_only_and_order
    (df : DigestFamily) (derive : ℕ → ℚ → ℕ × ℕ) (st : Store) (s : SBF) :
    (∀ bf s', (SBF.getNext derive st s).2 = .ok (bf, s') →
      s'.filters.map (·.name) = s.filters.map (·.name) ∨
      s'.filters.map (·.name)
        = s.filters.map (·.name) ++ [bfName s.name s.filters.length]) ∧
    (∀ key b s₁, (SBF.add df derive st s key).2 = .ok (b, s₁) →
      s₁.filters.map (·.name) = s.filters.map (·.name) ∨
      s₁.filters.map (·.name)
        = s.filters.map (·.name) ++ [bfName s.name s.filters.length]) ∧
    (∀ keys s₁, (SBF.bulkAdd df derive st s keys).2 = .ok s₁ →
      ∃ suffix, s₁.filters.map (·.name) = s.filters.map (·.name) ++ suffix) ∧
    (∀ name ic er sc ra s', (SBF.init derive st name ic er sc ra).2 = .ok s' →
      s'.filters.map (·.name) = sortNames (st.sets name)) ∧
    (∀ base n, n ≤ 10 → sortNames (creationNames base n) = creationNames base n) := by
  refine ⟨?_, ?_, ?_, ?_, ?_⟩
  · intro bf s' h
    exact (getNext_ok_facts derive st s h).2.2
  · intro key b s₁ h
    exact (sbf_add_names df derive st s key h).2
  · intro keys s₁ h
    exact (sbf_bulkAdd_names df derive st s keys h).2
  · intro name ic er sc ra s' h
    exact sbf_init_names derive st name ic er sc ra h
  · intro base n hn
    exact sortNames_creation base hn

/-- Witness for C9 at a concrete scalable filter over the empty store. -/
theorem generation_chain_append_only_and_order_witness :
    (∀ bf s', (SBF.getNext (fun _ _ => (1, 1)) emptyStore
        ⟨"s", halfQ, 2, halfQ, 1, []⟩).2 = .ok (bf, s') →
      s'.filters.map (·.name) = ([] : List BF).map (·.name) ∨
      s'.filters.map (·.name)
        = ([] : List BF).map (·.name) ++ [bfName "s" ([] : List BF).length]) ∧
    (∀ key b s₁, (SBF.add ⟨fun n _ => List.replicate n 0, fun n _ => by simp⟩
        (fun _ _ => (1, 1)) emptyStore ⟨"s", halfQ, 2, halfQ, 1, []⟩ key).2
        = .ok (b, s₁) →
      s₁.filters.map (·.name) = ([] : List BF).map (·.name) ∨
      s₁.filters.map (·.name)
        = ([] : List BF).map (·.name) ++ [bfName "s" ([] : List BF).length]) ∧
    (∀ keys s₁, (SBF.bulkAdd ⟨fun n _ => List.replicate n 0, fun n _ => by simp⟩
        (fun _ _ => (1, 1)) emptyStore ⟨"s", halfQ, 2, halfQ, 1, []⟩ keys).2
        = .ok s₁ →
      ∃ suffix, s₁.filters.map (·.name) = ([] : List BF).map (·.name) ++ suffix) ∧
    (∀ name ic er sc ra s', (SBF.init (fun _ _ => (1, 1)) emptyStore name ic er
        sc ra).2 = .ok s' →
      s'.filters.map (·.name) = sortNames (emptyStore.sets name)) ∧
    (∀ base n, n ≤ 10 → sortNames (creationNames base n) = creationNames base n) :=
  generation_chain_append_only_and_order
    ⟨fun n _ => List.replicate n 0, fun n _ => by simp⟩ (fun _ _ => (1, 1))
    emptyStore ⟨"s", halfQ, 2, halfQ, 1, []⟩

/-- Counterexample for C9 as stated: with 11 persisted generations the
byte-wise sort of the names does not reproduce the creation order — `s:bf10`
sorts between `s:bf1` and `s:bf2`. -/
theorem reconstruction_order_counterexample :
    sortNames (creationNames "s" 11)
        = ["s:bf0", "s:bf1", "s:bf10", "s:bf2", "s:bf3", "s:bf4", "s:bf5",
           "s:bf6", "s:bf7", "s:bf8", "s:bf9"] ∧
    sortNames (creationNames "s" 11) ≠ creationNames "s" 11 := by
  constructor
  · decide
  · decide

/-! ## C10: termination of `ScalableBloomFilter.bulk_add` -/

lemma hincrby_metas_other (st : Store) (mname n : String) (delta : ℕ)
    (hn : n ≠ mname) : (st.hincrbyCount mname delta).1.metas n = st.metas n := by
  cases h : st.metas mname <;> simp [Store.hincrbyCount, h, hn]

lemma setbits_metas_applied (name : String) (ps : List ℕ) (st : Store) :
    (st.setbits name ps).1.metas = st.metas := setbits_metas name ps st

lemma foldl_setbits_metas (df : DigestFamily) (f : BF) :
    ∀ (keys : List Key) (st : Store) (acc : List Bool),
      (keys.foldl
        (fun (acc : Store × List Bool) k =>
          let r := acc.1.setbits f.name (BF.positions df f k)
          (r.1, acc.2 ++ r.2)) (st, acc)).1.metas = st.metas := by
  intro keys
  induction keys with
  | nil => intro st acc; rfl
  | cons k keys ih =>
    intro st acc
    simp only [List.foldl_cons]
    rw [ih, setbits_metas]

lemma bulkAdd_metas_other (df : DigestFamily) (st : Store) (f : BF)
    (keys : List Key) (n : String) (hn : n ≠ f.metaName) :
    (BF.bulkAdd df st f keys).1.metas n = st.metas n := by
  rw [BF.bulkAdd]
  split_ifs
  · rfl
  · dsimp only
    rw [hincrby_metas_other _ _ _ _ hn, foldl_setbits_metas]

lemma bulkAdd_ok_of_not_over (df : DigestFamily) (st : Store) (f : BF)
    (keys : List Key) (hc : ¬f.capacity < f.count) :
    ∃ f', (BF.bulkAdd df st f keys).2 = .ok f' := by
  rw [BF.bulkAdd, if_neg hc]
  exact ⟨_, rfl⟩

lemma sadd_metas (st : Store) (a b : String) : (st.sadd a b).metas = st.metas := by
  unfold Store.sadd; split_ifs <;> rfl

/-- Construction against a fresh name either raises, or yields a filter with
the given name, a zero count and a positive capacity, all other metadata
records untouched. -/
lemma init_fresh_cases (derive : ℕ → ℚ → ℕ × ℕ) (st : Store) (name : String)
    (cap : ℕ) (er : ℚ) (hfresh : st.metas ("bfmeta:" ++ name) = none) :
    (∃ e, (BF.init derive st name cap er).2 = .error e) ∨
    (∃ bf, (BF.init derive st name cap er).2 = .ok bf ∧ bf.name = name ∧
      bf.count = 0 ∧ 0 < bf.capacity ∧
      ∀ n, n ≠ "bfmeta:" ++ name →
        (BF.init derive st name cap er).1.metas n = st.metas n) := by
  by_cases hv : ¬(0 < er ∧ er < 1)
  · exact Or.inl ⟨_, by rw [BF.init, if_pos hv]⟩
  by_cases hcap : ¬0 < cap
  · exact Or.inl ⟨_, by rw [BF.init, if_neg hv, if_pos hcap]⟩
  by_cases hnb : 2 ^ 32 < (derive cap er).1 * (derive cap er).2
  · refine Or.inl
      ⟨"capacity too large or error rate too low to store in redis", ?_⟩
    rw [BF.init, if_neg hv, if_neg hcap]
    dsimp only
    rw [hfresh]
    simp only [Option.map_none', orN]
    rw [if_pos hnb]
  · have hrw := init_fresh_ok derive st name cap er hfresh (not_not.mp hv)
      (not_not.mp hcap) hnb
    refine Or.inr ⟨_, by rw [hrw], rfl, rfl, not_not.mp hcap, ?_⟩
    intro n hn
    rw [hrw]
    simp [hn]

lemma creationNames_succ (base : String) (n : ℕ) :
    creationNames base (n + 1) = creationNames base n ++ [bfName base n] := by
  unfold creationNames
  rw [List.range_succ, List.map_append]
  rfl

lemma creationNames_length (base : String) (n : ℕ) :
    (creationNames base n).length = n := by
  simp [creationNames]

/-- `_get_next_filter` from a well-named chain over a store with no stale
metadata under the next creation name: either it raises, or it returns the
(under-capacity) newest generation unchanged, or it creates an appended
fresh generation, touching no other metadata record. -/
lemma getNext_cases (derive : ℕ → ℚ → ℕ × ℕ) (st : Store) (s : SBF)
    (hfresh : st.metas ("bfmeta:" ++ bfName s.name s.filters.length) = none)
    (hnames : s.filters.map (·.name) = creationNames s.name s.filters.length) :
    (∃ e st', SBF.getNext derive st s = (st', .error e)) ∨
    (∃ bf, SBF.getNext derive st s = (st, .ok (bf, s)) ∧
      bf.count < bf.capacity ∧ s.filters.getLast? = some bf ∧
      bf.name = bfName s.name (s.filters.length - 1) ∧ s.filters ≠ []) ∨
    (∃ bf st', SBF.getNext derive st s
        = (st', .ok (bf, {s with filters := s.filters ++ [bf]})) ∧
      bf.count < bf.capacity ∧ bf.name = bfName s.name s.filters.length ∧
      (∀ n, n ≠ "bfmeta:" ++ bfName s.name s.filters.length →
        st'.metas n = st.metas n)) := by
  rw [SBF.getNext]
  rcases hlast : s.filters.getLast? with _ | bf0
  · have hempty : s.filters = [] := List.getLast?_eq_none_iff.mp hlast
    have hzero : s.filters.length = 0 := by rw [hempty]; rfl
    rw [hzero] at hfresh
    rcases init_fresh_cases derive st (bfName s.name 0) s.initial_capacity
        s.error_rate hfresh with ⟨e, he⟩ | ⟨bf, hok, hn, hc0, hcpos, hother⟩
    · rcases hinit : BF.init derive st (bfName s.name 0) s.initial_capacity
          s.error_rate with ⟨stI, ri⟩
      rw [hinit] at he
      cases ri with
      | error e2 =>
        refine Or.inl ⟨e2, stI, ?_⟩
        rw [SBF.createGen, hinit]
      | ok bf => cases he
    · rcases hinit : BF.init derive st (bfName s.name 0) s.initial_capacity
          s.error_rate with ⟨stI, ri⟩
      rw [hinit] at hok hother
      cases ri with
      | error e2 => cases hok
      | ok bf2 =>
        injection hok with hbf
        refine Or.inr (Or.inr ⟨bf2, stI.sadd s.name bf2.name, ?_, ?_, ?_, ?_⟩)
        · rw [SBF.createGen, hinit]
        · rw [← hbf] at hc0 hcpos
          omega
        · rw [← hbf] at hn
          rw [hn, hzero]
        · intro n hn2
          rw [hzero] at hn2
          rw [sadd_metas]
          exact hother n hn2
  · dsimp only
    split_ifs with hfull
    · rcases init_fresh_cases derive st (bfName s.name s.filters.length)
          (min (bf0.capacity * s.scale) 1000000000)
          (max (bf0.error_rate * s.ratio) (1 / 1000000)) hfresh
        with ⟨e, he⟩ | ⟨bf, hok, hn, hc0, hcpos, hother⟩
      · rcases hinit : BF.init derive st (bfName s.name s.filters.length)
            (min (bf0.capacity * s.scale) 1000000000)
            (max (bf0.error_rate * s.ratio) (1 / 1000000)) with ⟨stI, ri⟩
        rw [hinit] at he
        cases ri with
        | error e2 =>
          refine Or.inl ⟨e2, stI, ?_⟩
          rw [SBF.createGen, hinit]
        | ok bf => cases he
      · rcases hinit : BF.init derive st (bfName s.name s.filters.length)
            (min (bf0.capacity * s.scale) 1000000000)
            (max (bf0.error_rate * s.ratio) (1 / 1000000)) with ⟨stI, ri⟩
        rw [hinit] at hok hother
        cases ri with
        | error e2 => cases hok
        | ok bf2 =>
          injection hok with hbf
          refine Or.inr (Or.inr ⟨bf2, stI.sadd s.name bf2.name, ?_, ?_, ?_, ?_⟩)
          · rw [SBF.createGen, hinit]
          · rw [← hbf] at hc0 hcpos
            omega
          · rw [← hbf] at hn
            exact hn
          · intro n hn2
            rw [sadd_metas]
            exact hother n hn2
    · refine Or.inr (Or.inl ⟨bf0, rfl, by omega, rfl, ?_, ?_⟩)
      · have hne : s.filters ≠ [] := by
          intro h0
          rw [h0] at hlast
          cases hlast
        have hget : s.filters.getLast hne = bf0 := by
          have := List.getLast?_eq_getLast s.filters hne
          rw [hlast] at this
          injection this with h2
          exact h2.symm
        have hmaplast : (s.filters.map (·.name)).getLast? = some bf0.name := by
          rw [List.getLast?_map, hlast]
          rfl
        rw [hnames] at hmaplast
        have hlen : 1 ≤ s.filters.length := by
          cases hfil : s.filters with
          | nil => exact absurd hfil hne
          | cons a l => simp [hfil]
        have : (creationNames s.name s.filters.length).getLast?
            = some (bfName s.name (s.filters.length - 1)) := by
          obtain ⟨m, hm⟩ : ∃ m, s.filters.length = m + 1 :=
            ⟨s.filters.length - 1, by omega⟩
          rw [hm, creationNames_succ, List.getLast?_concat]
          simp
        rw [this] at hmaplast
        injection hmaplast with h2
        exact h2.symm
      · intro h0
        rw [h0] at hlast
        cases hlast

lemma string_append_left_cancel {s a b : String} (h : s ++ a = s ++ b) :
    a = b := by
  have h2 := congrArg (fun x => x.data) h
  simp only [String.data_append] at h2
  exact String.ext (List.append_cancel_left h2)

lemma metaName_ne (base : String) {i j : ℕ} (hij : i ≠ j) :
    ("bfmeta:" ++ bfName base i : String) ≠ "bfmeta:" ++ bfName base j := by
  intro h
  exact hij (bfName_inj base (string_append_left_cancel h))

lemma length_replace_last {α : Type} (l : List α) (x : α) (h : l ≠ []) :
    (l.dropLast ++ [x]).length = l.length := by
  rw [List.length_append, List.length_dropLast]
  have : 1 ≤ l.length := List.length_pos.mpr h
  simp
  omega

/-- The `bulk_add` loop terminates within `keys.length` iterations from any
well-named chain over a store with no stale metadata under future creation
names: every writable generation it obtains has `count < capacity`, so every
iteration consumes at least one key. -/
lemma bulkAddLoop_terminates (df : DigestFamily) (derive : ℕ → ℚ → ℕ × ℕ)
    (keys : List Key) :
    ∀ (fuel : ℕ) (st : Store) (s : SBF) (idx : ℕ),
      keys.length - idx < fuel →
      (∀ i, s.filters.length ≤ i →
        st.metas ("bfmeta:" ++ bfName s.name i) = none) →
      s.filters.map (·.name) = creationNames s.name s.filters.length →
      SBF.bulkAddLoop df derive fuel st s keys idx ≠ none := by
  intro fuel
  induction fuel with
  | zero =>
    intro st s idx hfuel _ _
    exact absurd hfuel (by omega)
  | succ fuel ih =>
    intro st s idx hfuel hfresh hnames
    by_cases hidx : idx < keys.length
    swap
    · rw [SBF.bulkAddLoop, if_neg hidx]
      simp
    rw [SBF.bulkAddLoop, if_pos hidx]
    rcases getNext_cases derive st s (hfresh _ le_rfl) hnames with
      ⟨e, st', heq⟩ | ⟨bf, heq, hcnt, hlast, hbfname, hne⟩ |
      ⟨bf, st', heq, hcnt, hbfname, hother⟩
    · rw [heq]
      simp
    · -- the newest generation is returned unchanged
      rw [heq]
      dsimp only
      rcases hbulk : BF.bulkAdd df st bf
          ((keys.drop idx).take (min (bf.capacity - bf.count) keys.length))
        with ⟨stB, rb⟩
      cases rb with
      | error e => simp
      | ok bf2 =>
        have hlen1 : 1 ≤ s.filters.length := List.length_pos.mpr hne
        obtain ⟨hb2name, _, _, _⟩ :=
          bulkAdd_ok_params df st bf _ (by rw [hbulk] : _ = .ok bf2)
        have hrepl := names_replace_last s.filters bf bf2 hlast hb2name
        have hlen : (s.filters.dropLast ++ [bf2]).length = s.filters.length :=
          length_replace_last s.filters bf2 hne
        apply ih
        · have hch : 1 ≤ min (bf.capacity - bf.count) keys.length := by omega
          omega
        · intro i hi
          show stB.metas ("bfmeta:" ++ bfName s.name i) = none
          rw [hlen] at hi
          have hne2 : ("bfmeta:" ++ bfName s.name i : String) ≠ bf.metaName := by
            rw [BF.metaName, hbfname]
            exact metaName_ne s.name (by omega)
          have := bulkAdd_metas_other df st bf
            ((keys.drop idx).take (min (bf.capacity - bf.count) keys.length))
            _ hne2
          rw [hbulk] at this
          simp only at this
          rw [this]
          exact hfresh i (by omega)
        · show (s.filters.dropLast ++ [bf2]).map (·.name)
            = creationNames s.name (s.filters.dropLast ++ [bf2]).length
          rw [hrepl, hlen]
          exact hnames
    · -- a fresh generation was created and appended
      rw [heq]
      dsimp only
      have hdrop : (s.filters ++ [bf]).dropLast = s.filters :=
        List.dropLast_concat ..
      rcases hbulk : BF.bulkAdd df st' bf
          ((keys.drop idx).take (min (bf.capacity - bf.count) keys.length))
        with ⟨stB, rb⟩
      cases rb with
      | error e => simp
      | ok bf2 =>
        obtain ⟨hb2name, _, _, _⟩ :=
          bulkAdd_ok_params df st' bf _ (by rw [hbulk] : _ = .ok bf2)
        apply ih
        · have hch : 1 ≤ min (bf.capacity - bf.count) keys.length := by omega
          omega
        · intro i hi
          show stB.metas ("bfmeta:" ++ bfName s.name i) = none
          have hilen : s.filters.length + 1 ≤ i := by
            have hlen3 : ((s.filters ++ [bf]).dropLast ++ [bf2]).length
                = s.filters.length + 1 := by
              rw [hdrop]
              simp
            dsimp only at hi
            omega
          have hne2 : ("bfmeta:" ++ bfName s.name i : String) ≠ bf.metaName := by
            rw [BF.metaName, hbfname]
            exact metaName_ne s.name (by omega)
          have hb := bulkAdd_metas_other df st' bf
            ((keys.drop idx).take (min (bf.capacity - bf.count) keys.length))
            _ hne2
          rw [hbulk] at hb
          simp only at hb
          rw [hb, hother _ (metaName_ne s.name (by omega))]
          exact hfresh i (by omega)
        · show ((s.filters ++ [bf]).dropLast ++ [bf2]).map (·.name)
            = creationNames s.name ((s.filters ++ [bf]).dropLast ++ [bf2]).length
          rw [hdrop]
          simp only [List.map_append, List.length_append, List.map_cons,
            List.map_nil, List.length_cons, List.length_nil]
          rw [hnames, hb2name, hbfname, ← creationNames_succ]

/-- **C10**: `ScalableBloomFilter.bulk_add` terminates for every finite key
sequence, under the assumption that every freshly created generation starts
with `count < capacity` (here: the store holds no metadata under any future
creation name, and the chain is named in creation order): each iteration
obtains a generation with spare capacity, its chunk consumes at least one key,
and `keys.length + 1` loop iterations suffice. -/
theorem bulk_add_terminates (df : DigestFamily) (derive : ℕ → ℚ → ℕ × ℕ)
    (st : Store) (s : SBF) (keys : List Key)
    (hfresh : ∀ i, s.filters.length ≤ i →
      st.metas ("bfmeta:" ++ bfName s.name i) = none)
    (hnames : s.filters.map (·.name) = creationNames s.name s.filters.length) :
    SBF.bulkAddLoop df derive (keys.length + 1) st s keys 0 ≠ none :=
  bulkAddLoop_terminates df derive keys (keys.length + 1) st s 0 (by omega)
    hfresh hnames

/-- Witness for C10: two keys bulk-added to a fresh scalable filter with
`initial_capacity = 1` (forcing one generation creation per key). -/
theorem bulk_add_terminates_witness :
    SBF.bulkAddLoop ⟨fun n _ => List.replicate n 0, fun n _ => by simp⟩
      (fun _ _ => (1, 1)) (([[1], [2]] : List Key).length + 1) emptyStore
      ⟨"s", halfQ, 2, halfQ, 1, []⟩ [[1], [2]] 0 ≠ none :=
  bulk_add_terminates ⟨fun n _ => List.replicate n 0, fun n _ => by simp⟩
    (fun _ _ => (1, 1)) emptyStore ⟨"s", halfQ, 2, halfQ, 1, []⟩ [[1], [2]]
    (fun _ _ => rfl) rfl

/-! ## C6: the configuration derivation formulas

`BloomFilter.__init__` computes (lines 115-120)
`num_slices = int(ceil(log(1/error_rate, 2)))` and
`bits_per_slice = int(ceil(capacity * abs(log(error_rate)) /
(num_slices * log(2)^2)))` with IEEE-754 doubles; the formulas are modelled
exactly over `ℝ`.  At the claim's inputs the real value of the second formula
is ≈ 1437.7588, more than 0.2 away from an integer, so double rounding cannot
move the ceiling. -/

noncomputable def numSlicesR (error_rate : ℝ) : ℤ :=
  ⌈Real.log (1 / error_rate) / Real.log 2⌉

noncomputable def bitsPerSliceR (capacity error_rate : ℝ) : ℤ :=
  ⌈capacity * |Real.log error_rate| /
    ((numSlicesR error_rate : ℝ) * Real.log 2 ^ 2)⌉

/-- The `(num_slices, bits_per_slice)` pair of `__init__`, as consumed by the
store-level model. -/
noncomputable def deriveReal (cap : ℕ) (er : ℚ) : ℕ × ℕ :=
  ((numSlicesR (er : ℝ)).toNat, (bitsPerSliceR (cap : ℝ) (er : ℝ)).toNat)

lemma log_thousand_bounds :
    10 * Real.log 2 - 3 / 125 ≤ Real.log 1000 ∧
    Real.log 1000 ≤ 10 * Real.log 2 - 3 / 128 := by
  have h1024 : Real.log 1024 = 10 * Real.log 2 := by
    rw [show (1024 : ℝ) = 2 ^ 10 by norm_num, Real.log_pow]
    push_cast
    ring
  have hupper : Real.log 1024 - Real.log 1000 ≤ 3 / 125 := by
    rw [← Real.log_div (by norm_num) (by norm_num)]
    have := Real.log_le_sub_one_of_pos (x := 1024 / 1000) (by norm_num)
    linarith
  have hlower : 3 / 128 ≤ Real.log 1024 - Real.log 1000 := by
    have := Real.log_le_sub_one_of_pos (x := 1000 / 1024) (by norm_num)
    rw [Real.log_div (by norm_num) (by norm_num)] at this
    linarith
  constructor <;> linarith [h1024, hupper, hlower]

lemma numSlicesR_thousandth : numSlicesR (1 / 1000) = 10 := by
  unfold numSlicesR
  rw [show (1 : ℝ) / (1 / 1000) = 1000 by norm_num]
  have hl : 0 < Real.log 2 := Real.log_pos (by norm_num)
  rw [Int.ceil_eq_iff]
  constructor
  · rw [lt_div_iff₀ hl]
    have h512 : Real.log 512 < Real.log 1000 :=
      Real.log_lt_log (by norm_num) (by norm_num)
    have : Real.log 512 = 9 * Real.log 2 := by
      rw [show (512 : ℝ) = 2 ^ 9 by norm_num, Real.log_pow]
      push_cast
      ring
    push_cast
    linarith
  · rw [div_le_iff₀ hl]
    have h1024 : Real.log 1000 ≤ Real.log 1024 :=
      Real.log_le_log (by norm_num) (by norm_num)
    have : Real.log 1024 = 10 * Real.log 2 := by
      rw [show (1024 : ℝ) = 2 ^ 10 by norm_num, Real.log_pow]
      push_cast
      ring
    push_cast
    linarith

lemma bitsPerSliceR_thousand : bitsPerSliceR 1000 (1 / 1000) = 1438 := by
  unfold bitsPerSliceR
  rw [numSlicesR_thousandth]
  have habs : |Real.log (1 / 1000)| = Real.log 1000 := by
    rw [show (1 : ℝ) / 1000 = 1000⁻¹ by norm_num, Real.log_inv, abs_neg,
      abs_of_pos (Real.log_pos (by norm_num))]
  rw [habs]
  have hl1 : (0.6931471803 : ℝ) < Real.log 2 := Real.log_two_gt_d9
  have hl2 : Real.log 2 < 0.6931471808 := Real.log_two_lt_d9
  obtain ⟨hL1, hL2⟩ := log_thousand_bounds
  have hsq1 : (0.6931471803 : ℝ) ^ 2 < Real.log 2 ^ 2 := by nlinarith
  have hsq2 : Real.log 2 ^ 2 < (0.6931471808 : ℝ) ^ 2 := by nlinarith
  have hden : (0 : ℝ) < (10 : ℤ) * Real.log 2 ^ 2 := by
    push_cast
    nlinarith
  rw [Int.ceil_eq_iff]
  constructor
  · rw [lt_div_iff₀ hden]
    push_cast
    nlinarith
  · rw [div_le_iff₀ hden]
    push_cast
    nlinarith

/-- **C6** (amended): for `capacity = 1000`, `error_rate = 0.001` and no
persisted config, the §3 formulas give `num_slices = 10`,
`bits_per_slice = 1438` and `num_bits = 14380` (the real value of the
bits-per-slice formula is ≈ 1437.76, so its ceiling is 1438, not the 1439 the
spec states), and constructing a `BloomFilter` against a fresh store yields
exactly that configuration. -/
theorem config_derivation_1000 :
    numSlicesR (1 / 1000) = 10 ∧ bitsPerSliceR 1000 (1 / 1000) = 1438 ∧
    deriveReal 1000 (1 / 1000) = (10, 1438) ∧
    ∃ bf, (BF.init deriveReal emptyStore "f" 1000 (1 / 1000)).2 = .ok bf ∧
      bf.num_slices = 10 ∧ bf.bits_per_slice = 1438 ∧ bf.num_bits = 14380 ∧
      bf.capacity = 1000 ∧ bf.error_rate = 1 / 1000 := by
  have hds : deriveReal 1000 (1 / 1000) = (10, 1438) := by
    unfold deriveReal
    rw [show (((1 : ℚ) / 1000 : ℚ) : ℝ) = 1 / 1000 by push_cast; ring,
      show ((1000 : ℕ) : ℝ) = 1000 by push_cast; ring,
      numSlicesR_thousandth, bitsPerSliceR_thousand]
    rfl
  refine ⟨numSlicesR_thousandth, bitsPerSliceR_thousand, hds, ?_⟩
  have hrw := init_fresh_ok deriveReal emptyStore "f" 1000 (1 / 1000)
    rfl (by norm_num) (by norm_num)
    (by rw [hds]; norm_num)
  rw [hrw, hds]
  exact ⟨_, rfl, rfl, rfl, rfl, rfl, rfl⟩

/-- Counterexample for C6 as stated: the derivation does **not** give
`bits_per_slice = 1439` / `num_bits = 14390`. -/
theorem config_derivation_1000_counterexample :
    bitsPerSliceR 1000 (1 / 1000) ≠ 1439 ∧
    (numSlicesR (1 / 1000)).toNat * (bitsPerSliceR 1000 (1 / 1000)).toNat
      ≠ 14390 := by
  rw [bitsPerSliceR_thousand, numSlicesR_thousandth]
  constructor <;> decide
